import Mathlib

/-!
Shallow embedding of the CachePool repository (`src/LruCache.h`,
`src/LfuCache.h`, `src/ArcCache/*`).  Each C++ class becomes a Lean
structure and each member function becomes a Lean function on that
structure.  Machine integers are modelled as `Int`/`Nat` (sizes are
`Nat`, `int` fields are `Int`, `size_t` fields are `Nat`); the few
places where C++ mixes signed and unsigned operands are modelled
explicitly and noted in comments.  Mutexes are irrelevant to the
sequential semantics and are dropped.
-/

namespace JazhCache

/-- A linked-list node of `LruCache` (`LruNode` in `src/LruCache.h`).
Distinct `shared_ptr` allocations are modelled by a fresh `id`, because the
source's `updateExistingNode` allocates a *new* node for an existing key,
leaving the old node in the list: node identity is observable. -/
structure LruEntry (K V : Type) where
  id : Nat
  key : K
  value : V
deriving DecidableEq

/-- State of `LruCache`:  `capacity_ : int`, the doubly linked list (sentinels
dropped; list head = `dummyHead_->next_`, the LRU end; list tail =
`dummyTail_->prev_`, the MRU end), the hash index `nodeMap_ : Key -> node`
(as an association list onto node ids), and a fresh-id counter standing for
`std::make_shared` allocation. -/
structure LruState (K V : Type) where
  capacity : Int
  list : List (LruEntry K V)
  map : List (K × Nat)
  nextId : Nat
deriving DecidableEq

variable {K V : Type} [DecidableEq K] [DecidableEq V] [Inhabited V]

/-- `std::unordered_map::find` on the index. -/
def lookupA (m : List (K × Nat)) (k : K) : Option Nat :=
  (m.find? (fun p => p.1 == k)).map (·.2)

/-- `nodeMap_[key] = node` (insert-or-overwrite). -/
def setA (m : List (K × Nat)) (k : K) (v : Nat) : List (K × Nat) :=
  if (m.find? (fun p => p.1 == k)).isSome then
    m.map (fun p => if p.1 == k then (k, v) else p)
  else m ++ [(k, v)]

/-- `nodeMap_.erase(key)`. -/
def eraseA (m : List (K × Nat)) (k : K) : List (K × Nat) :=
  m.filter (fun p => p.1 != k)

namespace LruCache

/-- `LruCache::LruCache(int capacity)` (the list starts as the two sentinels,
i.e. empty). -/
def mk (capacity : Int) : LruState K V :=
  { capacity := capacity, list := [], map := [], nextId := 0 }

/-- `LruCache::evictLeastRecent`: unlink `dummyHead_->next_` and erase its key
from the index. -/
def evictLeastRecent (s : LruState K V) : LruState K V :=
  match s.list with
  | [] => s
  | h :: t => { s with list := t, map := eraseA s.map h.key }

/-- `LruCache::updateExistingNode` exactly as written in the source: despite
its name it does not update the node in place; it evicts when
`nodeMap_.size() >= capacity_` and then allocates a *fresh* node which it
splices at the tail and stores in the index.  (The body references a variable
`key` that is not in scope; the only consistent reading is the looked-up
node's key, which equals the `put` key, and that is how it is modelled.)
The pre-existing node for the key is left inside the linked list.
The `size_t >= int` comparison promotes `capacity_` to `size_t`; `put` has
already returned when `capacity_ <= 0`, so plain integer comparison is
faithful here. -/
def updateExistingNode (s : LruState K V) (k : K) (v : V) : LruState K V :=
  let s1 := if (s.map.length : Int) ≥ s.capacity then evictLeastRecent s else s
  { s1 with
    list := s1.list ++ [⟨s1.nextId, k, v⟩]
    map := setA s1.map k s1.nextId
    nextId := s1.nextId + 1 }

/-- Modelled from the spec: `LruCache::addNewNode` is called by `put` but its
definition is missing from the source file.  Spec §4.2: "Otherwise, if
`size == capacity`, unlink the head-next node and erase its key from the
index; then create a new node and splice at tail." -/
def addNewNode (s : LruState K V) (k : K) (v : V) : LruState K V :=
  let s1 := if (s.map.length : Int) = s.capacity then evictLeastRecent s else s
  { s1 with
    list := s1.list ++ [⟨s1.nextId, k, v⟩]
    map := setA s1.map k s1.nextId
    nextId := s1.nextId + 1 }

/-- `LruCache::put`. -/
def put (s : LruState K V) (k : K) (v : V) : LruState K V :=
  if s.capacity ≤ 0 then s
  else
    match lookupA s.map k with
    | some _ => updateExistingNode s k v
    | none => addNewNode s k v

/-- `LruCache::get(Key, Value&)`: on a hit, splice the index's node to the MRU
end (`moveToMostRecent`) and read its value; on a miss return `false` leaving
the out-parameter default-constructed.  The inner `none` branch is
unreachable: the index only ever references linked nodes. -/
def get (s : LruState K V) (k : K) : Bool × V × LruState K V :=
  match lookupA s.map k with
  | some nid =>
    match s.list.find? (fun e => e.id == nid) with
    | some e =>
      (true, e.value, { s with list := s.list.filter (fun x => x.id != nid) ++ [e] })
    | none => (true, default, s)
  | none => (false, default, s)

/-- `LruCache::get(Key)`: `Value value{}; get(key, value); return value;`. -/
def getValue (s : LruState K V) (k : K) : V × LruState K V :=
  let r := get s k
  (r.2.1, r.2.2)

/-- `LruCache::remove` (the intent of the source line whose lock declaration
is a typo): unlink the node and erase the key. -/
def remove (s : LruState K V) (k : K) : LruState K V :=
  match lookupA s.map k with
  | some nid => { s with list := s.list.filter (fun x => x.id != nid), map := eraseA s.map k }
  | none => s

end LruCache

/-- State of the LRU-K variant (the second class in `src/LruCache.h`,
commented as the "Lru-k" version): the inherited main `LruCache<Key,Value>`
plus the history `LruCache<Key, size_t>` and the admission bound `k_ : int`.
Instantiated at the repository's usage `Key = int`, `Value = std::string`. -/
structure LruKState where
  main : LruState Int String
  history : LruState Int Nat
  k : Int
deriving DecidableEq

namespace LruKCache

/-- Constructor.  Modelled from the spec: the source's member initializer
`std::make_unique<LruCache<Key, size_t>>` is incomplete (no arguments); spec
§4.3/§6 gives the history cache its own `historyCapacity`. -/
def mk (capacity historyCapacity k : Int) : LruKState :=
  { main := LruCache.mk capacity, history := LruCache.mk historyCapacity, k := k }

/-- LRU-K `get`: bump the history counter, then read the main cache. -/
def get (s : LruKState) (key : Int) : String × LruKState :=
  let r1 := LruCache.getValue s.history key
  let h2 := LruCache.put r1.2 key (r1.1 + 1)
  let r2 := LruCache.getValue s.main key
  (r2.1, { s with history := h2, main := r2.2 })

/-- LRU-K `put` exactly as written: a by-value `get` on the main cache is
compared with the single-space sentinel `" "` (with no early return), then
the history counter is read and bumped, and admission tests the
*pre-increment* count against `k_`. -/
def put (s : LruKState) (key : Int) (value : String) : LruKState :=
  let r0 := LruCache.getValue s.main key
  let m2 := if r0.1 != " " then LruCache.put r0.2 key value else r0.2
  let r1 := LruCache.getValue s.history key
  let historyCount : Int := (r1.1 : Int)
  let h2 := LruCache.put r1.2 key (r1.1 + 1)
  if historyCount ≥ s.k then
    { main := LruCache.put m2 key value, history := LruCache.remove h2 key, k := s.k }
  else
    { s with main := m2, history := h2 }

end LruKCache

/-- Operations of the `LruCache` public surface, for stating properties over
arbitrary call sequences. -/
inductive LruOp where
  | put : Int → Nat → LruOp
  | getB : Int → LruOp
  | getV : Int → LruOp
  | remove : Int → LruOp
deriving DecidableEq

/-- One public call on an `LruCache<int, Nat>`. -/
def lruStep (st : LruState Int Nat) (op : LruOp) : LruState Int Nat :=
  match op with
  | .put k v => LruCache.put st k v
  | .getB k => (LruCache.get st k).2.2
  | .getV k => (LruCache.getValue st k).2
  | .remove k => LruCache.remove st k

/-- Run a sequence of public operations on an `LruCache<int, Nat>`. -/
def runLru (ops : List LruOp) (s : LruState Int Nat) : LruState Int Nat :=
  ops.foldl lruStep s

end JazhCache

namespace XrmsCache

/-- A node of `LfuCache`'s `FreqList` (`FreqList::Node`): key, value and
access frequency (all `int`-typed in the instantiations the repository
uses: `Key = int`, and `freq` is an `int` field). -/
structure LfuNode where
  key : Int
  value : Int
  freq : Int
deriving DecidableEq

/-- State of `LfuCache`.  The per-frequency `FreqList`s are represented by
the single flattened list `nodes`: within each frequency the relative order
of `nodes` is the bucket order (both the buckets and this list append newly
bucketed nodes at the tail), so bucket `f` *is* `nodes.filter (freq = f)`
and its `getFirstNode` is the first match.  Empty `FreqList` shells that the
source leaves in `freqToFreqList_` carry no information (every operation
either filters them out or treats them as absent) and are not represented. -/
structure LfuState where
  capacity : Int
  minFreq : Int
  maxAverageNum : Int
  curAverageNum : Int
  curTotalNum : Int
  nodes : List LfuNode
deriving DecidableEq

namespace LfuCache

/-- `LfuCache::LfuCache(int capacity, int maxAverageNum = 10)`;
`minFreq_` starts at `INT8_MAX` = 127. -/
def mk (capacity : Int) (maxAverageNum : Int := 10) : LfuState :=
  { capacity := capacity, minFreq := 127, maxAverageNum := maxAverageNum
    curAverageNum := 0, curTotalNum := 0, nodes := [] }

/-- `nodeMap_.find(key)` (the index and the buckets agree on membership). -/
def find (s : LfuState) (k : Int) : Option LfuNode :=
  s.nodes.find? (fun e => e.key == k)

/-- `curAverageNum_ = curTotalNum_ / nodeMap_.size()`.  The C++ division
mixes `int` and `size_t`: for `t ≥ 0` it is plain truncating division; for
`t < 0` the dividend wraps modulo 2^64 and the 64-bit quotient is converted
back to `int` (modelled as the customary modulo-2^64 wrap). -/
def cppAvg (t : Int) (n : Nat) : Int :=
  if 0 ≤ t then Int.tdiv t n
  else
    let q := Int.tdiv (2 ^ 64 + t) (n : Int)
    if q < 2 ^ 63 then q else q - 2 ^ 64

/-- `LfuCache::addFreqNum` minus the aging call (split out so the aging pass
can be defined first): bump `curTotalNum_`, recompute `curAverageNum_`. -/
def addFreqNumCounters (s : LfuState) : LfuState :=
  let t := s.curTotalNum + 1
  let avg := if s.nodes.isEmpty then 0 else cppAvg t s.nodes.length
  { s with curTotalNum := t, curAverageNum := avg }

/-- `LfuCache::decreaseFreqNum(int num)`: subtract `num` from `curTotalNum_`
and recompute the average (no aging check here in the source). -/
def decreaseFreqNum (s : LfuState) (num : Int) : LfuState :=
  let t := s.curTotalNum - num
  let avg := if s.nodes.isEmpty then 0 else cppAvg t s.nodes.length
  { s with curTotalNum := t, curAverageNum := avg }

/-- The per-node frequency update of the aging pass:
`node->freq -= maxAverageNum_ / 2; if (node->freq < 1) node->freq = 1;`
(`maxAverageNum_ / 2` is C++ `int` division, truncating toward zero). -/
def ageFreq (d : Int) (f : Int) : Int :=
  let f' := f - d
  if f' < 1 then 1 else f'

/-- Aging one node: `removeFromFreqList(node)` then the frequency decrement
then `addToFreqList(node)` (append at the new bucket's tail). -/
def ageNode (d : Int) (e : LfuNode) : LfuNode :=
  { e with freq := ageFreq d e.freq }

/-- One iteration of `handleOverMaxAverageNum`'s loop on the flattened
representation: detach the node from its bucket and append it, aged, to the
bucket of its new frequency. -/
def ageStep (d : Int) (ns : List LfuNode) (e : LfuNode) : List LfuNode :=
  ns.filter (fun x => x.key != e.key) ++ [ageNode d e]

/-- `LfuCache::updateMinFreq`: scan the non-empty buckets for the least
frequency, starting from the `INT8_MAX` (= 127) sentinel, and fall back to 1
when the sentinel survives the scan. -/
def updateMinFreq (s : LfuState) : LfuState :=
  let m := s.nodes.foldl (fun acc e => min acc e.freq) 127
  { s with minFreq := if m = 127 then 1 else m }

/-- `LfuCache::handleOverMaxAverageNum`: iterate over every resident entry
(the source iterates `nodeMap_`, whose order is unspecified; the flattened
bucket order is used here), rebucketing each with its aged frequency, then
recompute `minFreq_`.  Each loop iteration reads the node's live `freq`,
which for distinct keys equals the frequency captured before the pass. -/
def handleOverMaxAverageNum (s : LfuState) : LfuState :=
  if s.nodes.isEmpty then s
  else
    updateMinFreq
      { s with nodes := s.nodes.foldl (ageStep (Int.tdiv s.maxAverageNum 2)) s.nodes }

/-- `LfuCache::addFreqNum`: bump the counters and run the aging pass when
the new average exceeds `maxAverageNum_`. -/
def addFreqNum (s : LfuState) : LfuState :=
  if (addFreqNumCounters s).curAverageNum > (addFreqNumCounters s).maxAverageNum then
    handleOverMaxAverageNum (addFreqNumCounters s)
  else addFreqNumCounters s

/-- `LfuCache::getInternal(node, value)`: detach from the current bucket,
`freq++`, append to the next bucket, and advance `minFreq_` when the old
bucket was the `minFreq_` bucket and is now empty.  (The source's final
comment announces that the totals also increase, but no code follows it.)
Returns the value read from the node. -/
def getInternal (s : LfuState) (e : LfuNode) : Int × LfuState :=
  let ns := s.nodes.filter (fun x => x.key != e.key) ++ [{ e with freq := e.freq + 1 }]
  let mf :=
    if e.freq = s.minFreq ∧ ns.all (fun x => x.freq != e.freq) then s.minFreq + 1
    else s.minFreq
  (e.value, { s with nodes := ns, minFreq := mf })

/-- `LfuCache::kickOut`: take `freqToFreqList_[minFreq_]->getFirstNode()` —
the first node in bucket order whose frequency is `minFreq_` — remove it
from the bucket and the index, and subtract the *key* (sic, see spec §9.3)
from the totals.  When the `minFreq_` bucket holds no node the source
dereferences a default-constructed bucket; that branch is modelled as a
no-op and is unreachable from states whose `minFreq_` bucket is live. -/
def kickOut (s : LfuState) : LfuState :=
  match s.nodes.find? (fun e => e.freq == s.minFreq) with
  | none => s
  | some victim =>
    let ns := s.nodes.eraseP (fun e => e.freq == s.minFreq)
    decreaseFreqNum { s with nodes := ns } victim.key

/-- `LfuCache::putInternal`: evict when `nodeMap_.size() == capacity_`
(the `size_t == int` comparison is false for every negative capacity), then
append the new node at frequency 1, bump the totals, and clamp
`minFreq_ = std::min(minFreq_, 1)`. -/
def putInternal (s : LfuState) (k v : Int) : LfuState :=
  let s1 := if (s.nodes.length : Int) = s.capacity then kickOut s else s
  let s2 := { s1 with nodes := s1.nodes ++ [⟨k, v, 1⟩] }
  let s3 := addFreqNum s2
  { s3 with minFreq := min s3.minFreq 1 }

/-- `LfuCache::put`: reject only `capacity_ == 0`; on a hit overwrite the
value and run `getInternal` on the node; otherwise `putInternal`. -/
def put (s : LfuState) (k v : Int) : LfuState :=
  if s.capacity = 0 then s
  else
    match find s k with
    | some e => (getInternal s { e with value := v }).2
    | none => putInternal s k v

/-- `LfuCache::get(Key, Value&)`. -/
def get (s : LfuState) (k : Int) : Option Int × LfuState :=
  match find s k with
  | some e =>
    let r := getInternal s e
    (some r.1, r.2)
  | none => (none, s)

end LfuCache

/-- Public operations of `LfuCache`, for properties over call sequences. -/
inductive LfuOp where
  | put : Int → Int → LfuOp
  | get : Int → LfuOp
deriving DecidableEq

/-- One public call on an `LfuCache<int, int>`. -/
def lfuStep (st : LfuState) (op : LfuOp) : LfuState :=
  match op with
  | .put k v => LfuCache.put st k v
  | .get k => (LfuCache.get st k).2

/-- Run a sequence of public operations on an `LfuCache<int, int>`. -/
def runLfu (ops : List LfuOp) (s : LfuState) : LfuState :=
  ops.foldl lfuStep s

end XrmsCache

namespace XrmsCache

/-- `ArcNode` (`src/ArcCache/ArcCacheNode.h`): key, value, and the access
count used as the LFU-part frequency.  A freshly constructed node has
`accessCount_ = 1`. -/
structure ArcEntry where
  key : Nat
  value : Nat
  accessCount : Nat
deriving DecidableEq

/-- State of `ArcLruPart` (`src/ArcCache/ArcLruPart.h`).  `main` is the main
list with the head as `mainHead_->next_` (most recent; `addToFront`
prepends) and the last element as `mainTail_->prev_` (the LRU victim).
`ghost` is the ghost list by key, head = `ghostHead_->next_` (`addToGhost`
prepends, `removeOldestGhost` drops the last element); the ghost hash map
agrees with it by key. -/
structure ArcLruState where
  capacity : Nat
  ghostCapacity : Nat
  transformThreshold : Nat
  main : List ArcEntry
  ghost : List Nat
deriving DecidableEq

/-- State of `ArcLfuPart` (`src/ArcCache/ArcLfuPart.h`).  The
`freqMap_ : std::map<size_t, std::list<NodePtr>>` is represented by the
flattened list `nodes`: every bucket push is a `push_back`, so within each
access count the relative order of `nodes` is exactly the bucket order, and
bucket `f` is `nodes.filter (accessCount = f)`; the source erases a bucket
as soon as it empties, so the `std::map` keys are exactly the access counts
present in `nodes` and `freqMap_.begin()->first` is their minimum.
`ghost` has head = `ghostHead_->next_` (oldest; `addToGhost` appends at the
tail here, `removeOldestGhost` drops the head). -/
structure ArcLfuState where
  capacity : Nat
  ghostCapacity : Nat
  transformThreshold : Nat
  minFreq : Nat
  nodes : List ArcEntry
  ghost : List Nat
deriving DecidableEq

namespace ArcLruPart

/-- `ArcLruPart::ArcLruPart(capacity, transformThreshold)`. -/
def mk (capacity transformThreshold : Nat) : ArcLruState :=
  { capacity := capacity, ghostCapacity := capacity
    transformThreshold := transformThreshold, main := [], ghost := [] }

/-- `ArcLruPart::evictLeastRecent`: move `mainTail_->prev_` (the last main
node) to the ghost list (trimming the oldest ghost first when the ghost map
is full) and erase it from the main index. -/
def evictLeastRecent (s : ArcLruState) : ArcLruState :=
  match s.main.getLast? with
  | none => s
  | some victim =>
    let ghost1 := if s.ghost.length ≥ s.ghostCapacity then s.ghost.dropLast else s.ghost
    { s with main := s.main.dropLast, ghost := victim.key :: ghost1 }

/-- `ArcLruPart::updateExistingNode`: `setValue` then `moveToFront`. -/
def updateExistingNode (s : ArcLruState) (e : ArcEntry) (v : Nat) : ArcLruState :=
  { s with main := { e with value := v } :: s.main.filter (fun x => x.key != e.key) }

/-- `ArcLruPart::addNewNode`: evict when `mainCache_.size() >= capacity_`,
then prepend a fresh node (access count 1). -/
def addNewNode (s : ArcLruState) (k v : Nat) : ArcLruState :=
  let s1 := if s.main.length ≥ s.capacity then evictLeastRecent s else s
  { s1 with main := ⟨k, v, 1⟩ :: s1.main }

/-- `ArcLruPart::put`. -/
def put (s : ArcLruState) (k v : Nat) : Bool × ArcLruState :=
  if s.capacity = 0 then (false, s)
  else
    match s.main.find? (fun e => e.key == k) with
    | some e => (true, updateExistingNode s e v)
    | none => (true, addNewNode s k v)

/-- `ArcLruPart::get`: on a hit run `updateNodeAccess` (move to front,
increment the access count, report whether the incremented count has reached
`transformThreshold_`) and read the value.
Returns `(found, value, shouldTransform, state)`. -/
def get (s : ArcLruState) (k : Nat) : Bool × Nat × Bool × ArcLruState :=
  match s.main.find? (fun e => e.key == k) with
  | some e =>
    let e' := { e with accessCount := e.accessCount + 1 }
    (true, e.value, decide (e'.accessCount ≥ s.transformThreshold),
      { s with main := e' :: s.main.filter (fun x => x.key != k) })
  | none => (false, 0, false, s)

/-- `ArcLruPart::checkGhost`: remove the key from the ghost list and report
whether it was there. -/
def checkGhost (s : ArcLruState) (k : Nat) : Bool × ArcLruState :=
  if k ∈ s.ghost then (true, { s with ghost := s.ghost.filter (fun x => x != k) })
  else (false, s)

/-- `ArcLruPart::increaseCapacity`. -/
def increaseCapacity (s : ArcLruState) : ArcLruState :=
  { s with capacity := s.capacity + 1 }

/-- `ArcLruPart::decreaseCapacity`: fail at capacity 0 (`capacity_ <= 0` on a
`size_t`); evict the LRU resident into the ghost list when the part is full;
then decrement the capacity. -/
def decreaseCapacity (s : ArcLruState) : Bool × ArcLruState :=
  if s.capacity = 0 then (false, s)
  else
    let s1 := if s.main.length = s.capacity then evictLeastRecent s else s
    (true, { s1 with capacity := s1.capacity - 1 })

end ArcLruPart

namespace ArcLfuPart

/-- `ArcLfuPart::ArcLfuPart(capacity, transformThreshold)`; `minFreq_ = 0`. -/
def mk (capacity transformThreshold : Nat) : ArcLfuState :=
  { capacity := capacity, ghostCapacity := capacity
    transformThreshold := transformThreshold, minFreq := 0, nodes := [], ghost := [] }

/-- The smallest access count occurring in a non-empty node list
(`freqMap_.begin()->first` after empty buckets are erased). -/
def minAcc (l : List ArcEntry) (dflt : Nat) : Nat :=
  match l with
  | [] => dflt
  | h :: t => t.foldl (fun a e => min a e.accessCount) h.accessCount

/-- `ArcLfuPart::updateNodeFrequency`: detach the node from its old bucket
(erasing the bucket if it empties, and stepping `minFreq_` to the new
frequency when the old bucket was the `minFreq_` one), then append it to the
bucket of `oldFreq + 1`. -/
def updateNodeFrequency (s : ArcLfuState) (e : ArcEntry) : ArcLfuState :=
  { s with
    nodes := s.nodes.filter (fun x => x.key != e.key)
      ++ [{ e with accessCount := e.accessCount + 1 }],
    minFreq :=
      if (s.nodes.filter (fun x => x.key != e.key)).all
            (fun x => x.accessCount != e.accessCount) ∧ e.accessCount = s.minFreq then
        e.accessCount + 1
      else s.minFreq }

/-- `ArcLfuPart::updateExistingNode`: `setValue` then `updateNodeFrequency`. -/
def updateExistingNode (s : ArcLfuState) (e : ArcEntry) (v : Nat) : ArcLfuState :=
  updateNodeFrequency s { e with value := v }

/-- `ArcLfuPart::removeOldestGhost`: drop `ghostHead_->next_` when the ghost
list is non-empty. -/
def removeOldestGhost (s : ArcLfuState) : ArcLfuState :=
  { s with ghost := s.ghost.tail }

/-- `ArcLfuPart::evictLeastFrequent`: pop the front of the `minFreq_` bucket,
erase the bucket if it empties and refresh `minFreq_` from the remaining
buckets, and move the victim's key to the ghost list (trimming first when the
ghost map is full).  An empty frequency map, or a `minFreq_` bucket with no
node (where the source's `freqMap_[minFreq_]` materializes an empty bucket
and returns), evicts nothing. -/
def evictLeastFrequent (s : ArcLfuState) : ArcLfuState :=
  if s.nodes.isEmpty then s
  else
    match s.nodes.find? (fun e => e.accessCount == s.minFreq) with
    | none => s
    | some victim =>
      { s with
        nodes := s.nodes.eraseP (fun e => e.accessCount == s.minFreq),
        minFreq :=
          if (s.nodes.eraseP (fun e => e.accessCount == s.minFreq)).all
              (fun x => x.accessCount != s.minFreq) then
            if (s.nodes.eraseP (fun e => e.accessCount == s.minFreq)).isEmpty then s.minFreq
            else minAcc (s.nodes.eraseP (fun e => e.accessCount == s.minFreq)) s.minFreq
          else s.minFreq,
        ghost := (if s.ghost.length ≥ s.ghostCapacity then s.ghost.tail else s.ghost)
          ++ [victim.key] }

/-- `ArcLfuPart::addNewNode`: evict when full, then push the fresh node
(access count 1) onto bucket 1 and set `minFreq_ = 1`. -/
def addNewNode (s : ArcLfuState) (k v : Nat) : ArcLfuState :=
  let s1 := if s.nodes.length ≥ s.capacity then evictLeastFrequent s else s
  { s1 with nodes := s1.nodes ++ [⟨k, v, 1⟩], minFreq := 1 }

/-- `ArcLfuPart::put`. -/
def put (s : ArcLfuState) (k v : Nat) : Bool × ArcLfuState :=
  if s.capacity = 0 then (false, s)
  else
    match s.nodes.find? (fun e => e.key == k) with
    | some e => (true, updateExistingNode s e v)
    | none => (true, addNewNode s k v)

/-- `ArcLfuPart::get`: on a hit bump the node's frequency and read its value. -/
def get (s : ArcLfuState) (k : Nat) : Bool × Nat × ArcLfuState :=
  match s.nodes.find? (fun e => e.key == k) with
  | some e => (true, e.value, updateNodeFrequency s e)
  | none => (false, 0, s)

/-- `ArcLfuPart::checkGhost`. -/
def checkGhost (s : ArcLfuState) (k : Nat) : Bool × ArcLfuState :=
  if k ∈ s.ghost then (true, { s with ghost := s.ghost.filter (fun x => x != k) })
  else (false, s)

/-- `ArcLfuPart::increaseCapacity`. -/
def increaseCapacity (s : ArcLfuState) : ArcLfuState :=
  { s with capacity := s.capacity + 1 }

/-- `ArcLfuPart::decreaseCapacity`. -/
def decreaseCapacity (s : ArcLfuState) : Bool × ArcLfuState :=
  if s.capacity = 0 then (false, s)
  else
    let s1 := if s.nodes.length = s.capacity then evictLeastFrequent s else s
    (true, { s1 with capacity := s1.capacity - 1 })

end ArcLfuPart

/-- State of the composite `ArcCache` (`src/ArcCache/ArcCache.h`). -/
structure ArcState where
  capacity : Nat
  transformThreshold : Nat
  lru : ArcLruState
  lfu : ArcLfuState
deriving DecidableEq

namespace ArcCache

/-- `ArcCache::ArcCache(capacity, transformThreshold)`: both halves are
constructed with the same full `capacity`. -/
def mk (capacity : Nat) (transformThreshold : Nat := 2) : ArcState :=
  { capacity := capacity, transformThreshold := transformThreshold
    lru := ArcLruPart.mk capacity transformThreshold
    lfu := ArcLfuPart.mk capacity transformThreshold }

/-- `ArcCache::checkGhostCaches`: a hit in the recency ghost shrinks the
frequency half and (only on success) grows the recency half; a hit in the
frequency ghost does the symmetric adjustment. -/
def checkGhostCaches (s : ArcState) (k : Nat) : Bool × ArcState :=
  if (ArcLruPart.checkGhost s.lru k).1 then
    (true, { s with
      lru := if (ArcLfuPart.decreaseCapacity s.lfu).1
        then ArcLruPart.increaseCapacity (ArcLruPart.checkGhost s.lru k).2
        else (ArcLruPart.checkGhost s.lru k).2,
      lfu := (ArcLfuPart.decreaseCapacity s.lfu).2 })
  else if (ArcLfuPart.checkGhost s.lfu k).1 then
    (true, { s with
      lru := (ArcLruPart.decreaseCapacity s.lru).2,
      lfu := if (ArcLruPart.decreaseCapacity s.lru).1
        then ArcLfuPart.increaseCapacity (ArcLfuPart.checkGhost s.lfu k).2
        else (ArcLfuPart.checkGhost s.lfu k).2 })
  else (false, s)

/-- `ArcCache::put`: on a ghost hit insert only into the recency half;
otherwise insert into the recency half and, if that succeeded, also into the
frequency half. -/
def put (s : ArcState) (k v : Nat) : ArcState :=
  if !(checkGhostCaches s k).1 then
    if (ArcLruPart.put (checkGhostCaches s k).2.lru k v).1 then
      { (checkGhostCaches s k).2 with
        lru := (ArcLruPart.put (checkGhostCaches s k).2.lru k v).2,
        lfu := (ArcLfuPart.put (checkGhostCaches s k).2.lfu k v).2 }
    else
      { (checkGhostCaches s k).2 with
        lru := (ArcLruPart.put (checkGhostCaches s k).2.lru k v).2 }
  else
    { (checkGhostCaches s k).2 with
      lru := (ArcLruPart.put (checkGhostCaches s k).2.lru k v).2 }

/-- `ArcCache::get`: consult the ghosts, then the recency half (promoting
into the frequency half when the hit reports `shouldTransform`), then the
frequency half. -/
def get (s : ArcState) (k : Nat) : Bool × Nat × ArcState :=
  if (ArcLruPart.get (checkGhostCaches s k).2.lru k).1 then
    if (ArcLruPart.get (checkGhostCaches s k).2.lru k).2.2.1 then
      (true, (ArcLruPart.get (checkGhostCaches s k).2.lru k).2.1,
        { (checkGhostCaches s k).2 with
          lru := (ArcLruPart.get (checkGhostCaches s k).2.lru k).2.2.2,
          lfu := (ArcLfuPart.put (checkGhostCaches s k).2.lfu k
            (ArcLruPart.get (checkGhostCaches s k).2.lru k).2.1).2 })
    else
      (true, (ArcLruPart.get (checkGhostCaches s k).2.lru k).2.1,
        { (checkGhostCaches s k).2 with
          lru := (ArcLruPart.get (checkGhostCaches s k).2.lru k).2.2.2 })
  else
    ((ArcLfuPart.get (checkGhostCaches s k).2.lfu k).1,
      (ArcLfuPart.get (checkGhostCaches s k).2.lfu k).2.1,
      { (checkGhostCaches s k).2 with
        lfu := (ArcLfuPart.get (checkGhostCaches s k).2.lfu k).2.2 })

end ArcCache

/-- Public operations of `ArcCache`. -/
inductive ArcOp where
  | put : Nat → Nat → ArcOp
  | get : Nat → ArcOp
deriving DecidableEq

/-- One public call on an `ArcCache`. -/
def arcStep (st : ArcState) (op : ArcOp) : ArcState :=
  match op with
  | .put k v => ArcCache.put st k v
  | .get k => (ArcCache.get st k).2.2

/-- Run a sequence of public operations on an `ArcCache`. -/
def runArc (ops : List ArcOp) (s : ArcState) : ArcState :=
  ops.foldl arcStep s

end XrmsCache

section ClaimClosedTheorems

open JazhCache XrmsCache

/-- Claim C5, code-bug exhibit.  `LruCache(2); put(1,10); put(2,20); put(2,21)`:
the third `put` hits the existing key 2, yet `updateExistingNode` (whose body
is an eviction-plus-allocation instead of the documented in-place update)
evicts the unrelated resident key 1.  Afterwards `get(1)` misses — against
the claim that a `put` on a resident key updates in place and evicts no other
entry — while `get(2)` returns the new value 21. -/
theorem c5_put_existing_key_evicts_another :
    (LruCache.get (LruCache.put (LruCache.put (LruCache.put
        (LruCache.mk (K := Int) (V := Nat) 2) 1 10) 2 20) 2 21) 1).1 = false ∧
    lookupA (LruCache.put (LruCache.put (LruCache.put
        (LruCache.mk (K := Int) (V := Nat) 2) 1 10) 2 20) 2 21).map 1 = none ∧
    (LruCache.get (LruCache.put (LruCache.put (LruCache.put
        (LruCache.mk (K := Int) (V := Nat) 2) 1 10) 2 20) 2 21) 2).1 = true ∧
    (LruCache.get (LruCache.put (LruCache.put (LruCache.put
        (LruCache.mk (K := Int) (V := Nat) 2) 1 10) 2 20) 2 21) 2).2.1 = 21 := by
  decide

/-- Claim C6, code-bug exhibit.  A fresh `LruKCache(3, 3, 2)` receives a
single `put(5, "x")`.  The claim (and the spec) require key 5 to stay out of
the main cache until its history count reaches `K = 2`; the code's
`get(key) != " "` sentinel test sees the default-constructed empty string
for the absent key and immediately inserts 5 into the main cache, although
its history count is only 1. -/
theorem c6_lruk_admits_cold_key :
    (LruCache.get (LruKCache.put (LruKCache.mk 3 3 2) 5 "x").main 5).1 = true ∧
    (LruCache.get (LruKCache.put (LruKCache.mk 3 3 2) 5 "x").main 5).2.1 = "x" ∧
    (LruCache.getValue (LruKCache.put (LruKCache.mk 3 3 2) 5 "x").history 5).1 = 1 ∧
    (LruKCache.mk 3 3 2).k = 2 := by
  decide

/-- Claim C2, code-bug exhibit.  `LfuCache(2, 10); put(1,7);` then thirty
`get(1)` hits: `curTotalNum_` stays at 1 (its value after the single insert)
and `curAverageNum_` stays at 1, so no aging pass ever fires even though the
node's frequency has climbed to 31 — against the claim that every hit
increments `curTotal` and a long enough run of hits triggers aging. -/
theorem c2_get_hits_do_not_touch_curtotal :
    (Nat.iterate (fun t => (LfuCache.get t 1).2) 30 (LfuCache.put (LfuCache.mk 2 10) 1 7)).curTotalNum = 1 ∧
    (Nat.iterate (fun t => (LfuCache.get t 1).2) 30 (LfuCache.put (LfuCache.mk 2 10) 1 7)).curAverageNum = 1 ∧
    LfuCache.find (Nat.iterate (fun t => (LfuCache.get t 1).2) 30 (LfuCache.put (LfuCache.mk 2 10) 1 7)) 1
      = some ⟨1, 7, 31⟩ := by
  decide

/-- Claim C9, counterexample.  An `LfuCache` constructed with the negative
capacity −1 does *not* reject insertions: its guard tests `capacity_ == 0`
only, and the `size == capacity` eviction test never fires for a negative
capacity, so `put(1,7)` stores the entry and `get(1)` hits — against the
claim that every policy with zero *or negative* capacity no-ops on `put` and
always misses on `get`. -/
theorem c9_counterexample_negative_lfu_capacity_stores :
    (LfuCache.mk (-1) 10).capacity = -1 ∧
    (LfuCache.get (LfuCache.put (LfuCache.mk (-1) 10) 1 7) 1).1 = some 7 ∧
    (LfuCache.put (LfuCache.mk (-1) 10) 1 7).nodes ≠ [] := by
  decide

/-- Claim C1, counterexample.  `ArcCache(1)` after the single operation
`put(1,10)`: the key is inserted into *both* halves (the bootstrap insert into
the frequency half), so `|T1| + |T2| = 2 > 1 = c` already after the first
operation.  Each half was constructed with the full capacity `c`, so the
aggregate bound is `2c`, not `c`. -/
theorem c1_counterexample_sizes_exceed_capacity :
    (runArc [.put 1 10] (ArcCache.mk 1 2)).capacity = 1 ∧
    (runArc [.put 1 10] (ArcCache.mk 1 2)).lru.main.length +
      (runArc [.put 1 10] (ArcCache.mk 1 2)).lfu.nodes.length = 2 := by
  decide

/-- Claim C3, counterexample.  `ArcCache(1); put(1,10); put(2,20)` leaves key
1 in the recency ghost B1.  A `get(1)` then adjusts the capacity split and
*removes* the ghost entry, but never materializes the key: the `get` reports
a miss and key 1 is resident in neither half afterwards — against the claim
that a `get` on a ghost key leaves the key resident in the recency half. -/
theorem c3_counterexample_get_on_ghost_not_materialized :
    1 ∈ (runArc [.put 1 10, .put 2 20] (ArcCache.mk 1 2)).lru.ghost ∧
    (ArcCache.get (runArc [.put 1 10, .put 2 20] (ArcCache.mk 1 2)) 1).1 = false ∧
    ((ArcCache.get (runArc [.put 1 10, .put 2 20] (ArcCache.mk 1 2)) 1).2.2.lru.main.map
        (fun e => e.key)).contains 1 = false ∧
    ((ArcCache.get (runArc [.put 1 10, .put 2 20] (ArcCache.mk 1 2)) 1).2.2.lfu.nodes.map
        (fun e => e.key)).contains 1 = false := by
  decide

/-- Claim C7, counterexample.  `LfuCache(1, -252); put(0,5)`: the insert pushes
`curAverageNum_ = 1` above the (negative) `maxAverageNum_`, so the aging pass
runs and "decrements" the node's frequency by `-252 / 2 = -126`, to 127.  The
only non-empty bucket is now bucket 127, but `updateMinFreq` starts its scan
at the sentinel `INT8_MAX = 127`, concludes the scan "failed", and resets
`minFreq_` to 1 — so after the pass `minFreq` is *not* the minimum frequency
with a non-empty bucket. -/
theorem c7_counterexample_minfreq_sentinel_collision :
    (LfuCache.put (LfuCache.mk 1 (-252)) 0 5).nodes = [⟨0, 5, 127⟩] ∧
    (LfuCache.put (LfuCache.mk 1 (-252)) 0 5).minFreq = 1 := by
  decide

end ClaimClosedTheorems

namespace JazhCache

/-- With non-positive capacity, every public `LruCache` call leaves the
freshly constructed (empty) state unchanged. -/
lemma lruStep_zero_fixed (cL : Int) (h : cL ≤ 0) (op : LruOp) :
    lruStep (LruCache.mk cL) op = LruCache.mk cL := by
  cases op <;>
    simp [lruStep, LruCache.put, LruCache.get, LruCache.getValue, LruCache.remove,
      LruCache.mk, lookupA, h]

/-- With non-positive capacity, every call sequence leaves `LruCache` in its
initial empty state. -/
lemma runLru_zero_fixed (cL : Int) (h : cL ≤ 0) (ops : List LruOp) :
    runLru ops (LruCache.mk cL) = LruCache.mk cL := by
  induction ops with
  | nil => rfl
  | cons op ops ih =>
    show runLru ops (lruStep (LruCache.mk cL) op) = LruCache.mk cL
    rw [lruStep_zero_fixed cL h op, ih]

end JazhCache

namespace XrmsCache

/-- With capacity exactly 0, every public `LfuCache` call leaves the freshly
constructed (empty) state unchanged. -/
lemma lfuStep_zero_fixed (maxAvg : Int) (op : LfuOp) :
    lfuStep (LfuCache.mk 0 maxAvg) op = LfuCache.mk 0 maxAvg := by
  cases op <;>
    simp [lfuStep, LfuCache.put, LfuCache.get, LfuCache.find, LfuCache.mk]

/-- With capacity 0, every call sequence leaves `LfuCache` empty. -/
lemma runLfu_zero_fixed (maxAvg : Int) (ops : List LfuOp) :
    runLfu ops (LfuCache.mk 0 maxAvg) = LfuCache.mk 0 maxAvg := by
  induction ops with
  | nil => rfl
  | cons op ops ih =>
    show runLfu ops (lfuStep (LfuCache.mk 0 maxAvg) op) = LfuCache.mk 0 maxAvg
    rw [lfuStep_zero_fixed maxAvg op, ih]

/-- With capacity 0, every public `ArcCache` call leaves the freshly
constructed state unchanged: both half `put`s are rejected and the ghosts
stay empty. -/
lemma arcStep_zero_fixed (K : Nat) (op : ArcOp) :
    arcStep (ArcCache.mk 0 K) op = ArcCache.mk 0 K := by
  cases op <;>
    simp [arcStep, ArcCache.put, ArcCache.get, ArcCache.checkGhostCaches, ArcCache.mk,
      ArcLruPart.put, ArcLruPart.get, ArcLruPart.checkGhost, ArcLruPart.mk,
      ArcLfuPart.put, ArcLfuPart.get, ArcLfuPart.checkGhost, ArcLfuPart.mk]

/-- With capacity 0, every call sequence leaves `ArcCache` in its initial
state. -/
lemma runArc_zero_fixed (K : Nat) (ops : List ArcOp) :
    runArc ops (ArcCache.mk 0 K) = ArcCache.mk 0 K := by
  induction ops with
  | nil => rfl
  | cons op ops ih =>
    show runArc ops (arcStep (ArcCache.mk 0 K) op) = ArcCache.mk 0 K
    rw [arcStep_zero_fixed K op, ih]

open JazhCache in
/-- Claim C9, amended.  LRU: for every capacity ≤ 0 (zero *or* negative),
every sequence of puts/gets/removes leaves the cache empty, `get` always
reports a miss and the by-value overload returns the default-constructed
value.  LFU: the same holds for capacity exactly 0 (a negative capacity does
*not* reject insertions — see the counterexample).  ARC (whose capacity is a
`size_t` and cannot be negative): at capacity 0 every operation is a no-op
and `get` always misses. -/
theorem c9_amended_nonpositive_capacity (cL : Int) (opsL : List LruOp) (k : Int)
    (maxAvg : Int) (opsF : List LfuOp) (K : Nat) (opsA : List ArcOp) (ka : Nat)
    (hL : cL ≤ 0) :
    (runLru opsL (LruCache.mk cL)).map = [] ∧
    (runLru opsL (LruCache.mk cL)).list = [] ∧
    (LruCache.get (runLru opsL (LruCache.mk cL)) k).1 = false ∧
    (LruCache.getValue (runLru opsL (LruCache.mk cL)) k).1 = default ∧
    (runLfu opsF (LfuCache.mk 0 maxAvg)).nodes = [] ∧
    (LfuCache.get (runLfu opsF (LfuCache.mk 0 maxAvg)) k).1 = none ∧
    (runArc opsA (ArcCache.mk 0 K)).lru.main = [] ∧
    (runArc opsA (ArcCache.mk 0 K)).lfu.nodes = [] ∧
    (ArcCache.get (runArc opsA (ArcCache.mk 0 K)) ka).1 = false := by
  rw [runLru_zero_fixed cL hL opsL, runLfu_zero_fixed maxAvg opsF, runArc_zero_fixed K opsA]
  refine ⟨rfl, rfl, rfl, rfl, rfl, rfl, rfl, rfl, ?_⟩
  simp [ArcCache.get, ArcCache.checkGhostCaches, ArcCache.mk,
    ArcLruPart.get, ArcLruPart.checkGhost, ArcLruPart.mk,
    ArcLfuPart.get, ArcLfuPart.checkGhost, ArcLfuPart.mk]

open JazhCache in
/-- Witness for the amended claim C9 at `cL = -1`, one put each, keys 1/9. -/
theorem c9_amended_nonpositive_capacity_witness :
    ((-1 : Int) ≤ 0) ∧
    ((runLru [.put 1 2] (LruCache.mk (-1))).map = [] ∧
      (runLru [.put 1 2] (LruCache.mk (-1))).list = [] ∧
      (LruCache.get (runLru [.put 1 2] (LruCache.mk (-1))) 9).1 = false ∧
      (LruCache.getValue (runLru [.put 1 2] (LruCache.mk (-1))) 9).1 = default ∧
      (runLfu [.put 1 2] (LfuCache.mk 0 10)).nodes = [] ∧
      (LfuCache.get (runLfu [.put 1 2] (LfuCache.mk 0 10)) 9).1 = none ∧
      (runArc [.put 1 2] (ArcCache.mk 0 2)).lru.main = [] ∧
      (runArc [.put 1 2] (ArcCache.mk 0 2)).lfu.nodes = [] ∧
      (ArcCache.get (runArc [.put 1 2] (ArcCache.mk 0 2)) 9).1 = false) :=
  ⟨by decide,
    c9_amended_nonpositive_capacity (-1) [.put 1 2] 9 10 [.put 1 2] 2 [.put 1 2] 9
      (by decide)⟩

end XrmsCache

namespace XrmsCache

/-- Aging keeps the key. -/
lemma ageNode_key (d : Int) (e : LfuNode) : (LfuCache.ageNode d e).key = e.key := rfl

/-- The aged frequency is at least 1. -/
lemma ageFreq_ge_one (d f : Int) : 1 ≤ LfuCache.ageFreq d f := by
  unfold LfuCache.ageFreq
  dsimp only
  split <;> omega

/-- Closed form of the aging loop: processing the nodes of `S` (with
pairwise distinct keys) over a working list `st` removes every `S`-keyed
entry from `st` and appends the aged copies of `S` in processing order. -/
lemma ageStep_foldl (d : Int) :
    ∀ (S st : List LfuNode), (S.map (fun e => e.key)).Nodup →
      S.foldl (LfuCache.ageStep d) st =
        st.filter (fun x => decide (x.key ∉ S.map (fun e => e.key))) ++
          S.map (LfuCache.ageNode d) := by
  intro S
  induction S with
  | nil => intro st _; simp
  | cons e S ih =>
    intro st hnd
    have hpair : (∀ x ∈ S, ¬x.key = e.key) ∧ (S.map (fun e => e.key)).Nodup := by
      simpa using hnd
    have hmem : e.key ∉ S.map (fun e => e.key) := by
      intro hm
      obtain ⟨x, hx, hxe⟩ := List.mem_map.mp hm
      exact hpair.1 x hx hxe
    have step : (e :: S).foldl (LfuCache.ageStep d) st
        = S.foldl (LfuCache.ageStep d) (LfuCache.ageStep d st e) := rfl
    rw [step, ih (LfuCache.ageStep d st e) hpair.2]
    unfold LfuCache.ageStep
    rw [List.filter_append, List.filter_filter]
    have h1 : List.filter (fun x => decide (x.key ∉ S.map (fun e => e.key)))
        [LfuCache.ageNode d e] = [LfuCache.ageNode d e] := by
      have hd : (decide ((LfuCache.ageNode d e).key ∉ S.map (fun e => e.key))) = true := by
        rw [ageNode_key]
        exact decide_eq_true hmem
      simp only [List.filter, hd]
    rw [h1]
    have h3 : st.filter
          (fun a => decide (a.key ∉ S.map (fun e => e.key)) && (a.key != e.key))
        = st.filter (fun x => decide (x.key ∉ (e :: S).map (fun e => e.key))) := by
      apply List.filter_congr
      intro x _
      have hb : (x.key != e.key) = decide (¬x.key = e.key) := by
        by_cases h : x.key = e.key <;> simp [bne, h]
      rw [hb, ← Bool.decide_and]
      apply decide_eq_decide.mpr
      simp only [List.map_cons, List.mem_cons, not_or]
      tauto
    rw [h3, List.map_cons, List.append_assoc]
    rfl

/-- A list filtered down to the entries whose key does not occur in the list
is empty. -/
lemma filter_not_own_keys_nil (l : List LfuNode) :
    l.filter (fun x => decide (x.key ∉ l.map (fun e => e.key))) = [] := by
  apply List.filter_eq_nil_iff.mpr
  intro x hx
  simp only [decide_eq_true_eq, Decidable.not_not, List.mem_map]
  exact ⟨x, hx, rfl⟩

/-- Reading `minFreq` off `updateMinFreq`. -/
lemma updateMinFreq_minFreq (s : LfuState) :
    (LfuCache.updateMinFreq s).minFreq =
      (if s.nodes.foldl (fun acc e => min acc e.freq) 127 = 127 then 1
       else s.nodes.foldl (fun acc e => min acc e.freq) 127) := rfl

/-- `handleOverMaxAverageNum` on a non-empty state with pairwise distinct
keys ages every node pointwise and recomputes `minFreq` over the aged list. -/
lemma handleOver_nodes_eq_map (s : LfuState) (hne : s.nodes ≠ [])
    (hnd : (s.nodes.map (fun e => e.key)).Nodup) :
    (LfuCache.handleOverMaxAverageNum s).nodes
      = s.nodes.map (LfuCache.ageNode (Int.tdiv s.maxAverageNum 2)) ∧
    (LfuCache.handleOverMaxAverageNum s).minFreq
      = (LfuCache.updateMinFreq
          { s with nodes := s.nodes.map (LfuCache.ageNode (Int.tdiv s.maxAverageNum 2)) }).minFreq := by
  unfold LfuCache.handleOverMaxAverageNum
  rw [if_neg (by simpa [List.isEmpty_iff] using hne)]
  rw [ageStep_foldl (Int.tdiv s.maxAverageNum 2) s.nodes s.nodes hnd,
    filter_not_own_keys_nil, List.nil_append]
  exact ⟨rfl, rfl⟩

/-- The fold in `updateMinFreq` is bounded by its start value. -/
lemma foldl_min_le_init (l : List LfuNode) : ∀ (i : Int),
    l.foldl (fun acc e => min acc e.freq) i ≤ i := by
  induction l with
  | nil => intro i; exact le_refl i
  | cons h t ih =>
    intro i
    calc t.foldl (fun acc e => min acc e.freq) (min i h.freq) ≤ min i h.freq := ih _
      _ ≤ i := min_le_left _ _

/-- The fold in `updateMinFreq` is bounded by every member's frequency. -/
lemma foldl_min_le_mem (l : List LfuNode) : ∀ (i : Int) (e : LfuNode), e ∈ l →
    l.foldl (fun acc e => min acc e.freq) i ≤ e.freq := by
  induction l with
  | nil => intro i e he; cases he
  | cons h t ih =>
    intro i e he
    rcases List.mem_cons.mp he with rfl | hmem
    · calc t.foldl (fun acc e => min acc e.freq) (min i e.freq) ≤ min i e.freq :=
          foldl_min_le_init t _
        _ ≤ e.freq := min_le_right _ _
    · exact ih _ e hmem

/-- The fold in `updateMinFreq` is the start value or a member's frequency. -/
lemma foldl_min_cases (l : List LfuNode) : ∀ (i : Int),
    l.foldl (fun acc e => min acc e.freq) i = i ∨
      ∃ e ∈ l, l.foldl (fun acc e => min acc e.freq) i = e.freq := by
  induction l with
  | nil => intro i; exact Or.inl rfl
  | cons h t ih =>
    intro i
    rcases ih (min i h.freq) with heq | ⟨e, he, heq⟩
    · rcases min_cases i h.freq with ⟨hm, _⟩ | ⟨hm, _⟩
      · exact Or.inl (by rw [List.foldl_cons, heq, hm])
      · exact Or.inr ⟨h, List.mem_cons_self h t, by rw [List.foldl_cons, heq, hm]⟩
    · exact Or.inr ⟨e, List.mem_cons_of_mem h he, by rw [List.foldl_cons, heq]⟩

/-- Claim C7, amended.  During an LFU aging pass over residents with pairwise
distinct keys: every resident's frequency is replaced by
`freq - maxAverageNum_/2` floored at 1 (so every resident ends with
`freq ≥ 1`), and each resident is rebucketed at its new frequency (bucket
membership is frequency in this representation).  `minFreq` afterwards
equals the least frequency `m` carried by a resident — the minimum non-empty
bucket — *provided* `m < 127`; when every aged frequency is ≥ 127 the
`INT8_MAX` sentinel of `updateMinFreq` collides with the true minimum and
`minFreq` is set to 1 instead (see the counterexample). -/
theorem c7_amended_lfu_aging_pass (s : LfuState)
    (hne : s.nodes ≠ []) (hnd : (s.nodes.map (fun e => e.key)).Nodup) :
    (LfuCache.handleOverMaxAverageNum s).nodes
      = s.nodes.map (LfuCache.ageNode (Int.tdiv s.maxAverageNum 2)) ∧
    (∀ e ∈ (LfuCache.handleOverMaxAverageNum s).nodes, 1 ≤ e.freq) ∧
    (∀ m : Int, (∃ e ∈ (LfuCache.handleOverMaxAverageNum s).nodes, e.freq = m) →
      (∀ e ∈ (LfuCache.handleOverMaxAverageNum s).nodes, m ≤ e.freq) →
      m < 127 → (LfuCache.handleOverMaxAverageNum s).minFreq = m) ∧
    ((∀ e ∈ (LfuCache.handleOverMaxAverageNum s).nodes, 127 ≤ e.freq) →
      (LfuCache.handleOverMaxAverageNum s).minFreq = 1) := by
  obtain ⟨hnodes, hmin⟩ := handleOver_nodes_eq_map s hne hnd
  have hproj : ({ s with
      nodes := s.nodes.map (LfuCache.ageNode (Int.tdiv s.maxAverageNum 2)) } : LfuState).nodes
        = (LfuCache.handleOverMaxAverageNum s).nodes := by rw [hnodes]
  refine ⟨hnodes, ?_, ?_, ?_⟩
  · intro e he
    rw [hnodes] at he
    obtain ⟨e0, _, rfl⟩ := List.mem_map.mp he
    exact ageFreq_ge_one _ _
  · intro m hex hlow hm
    obtain ⟨e, he, hef⟩ := hex
    have hfold1 : (LfuCache.handleOverMaxAverageNum s).nodes.foldl
        (fun acc e => min acc e.freq) 127 ≤ m := by
      rw [← hef]
      exact foldl_min_le_mem _ 127 e he
    have hfold2 : m ≤ (LfuCache.handleOverMaxAverageNum s).nodes.foldl
        (fun acc e => min acc e.freq) 127 := by
      rcases foldl_min_cases (LfuCache.handleOverMaxAverageNum s).nodes 127 with heq | ⟨e', he', heq⟩
      · omega
      · rw [heq]; exact hlow e' he'
    rw [hmin, updateMinFreq_minFreq, hproj]
    rw [le_antisymm hfold1 hfold2, if_neg (by omega)]
  · intro hhigh
    have hfold : (LfuCache.handleOverMaxAverageNum s).nodes.foldl
        (fun acc e => min acc e.freq) 127 = 127 := by
      have h1 := foldl_min_le_init (LfuCache.handleOverMaxAverageNum s).nodes (127 : Int)
      rcases foldl_min_cases (LfuCache.handleOverMaxAverageNum s).nodes 127 with heq | ⟨e', he', heq⟩
      · exact heq
      · have := hhigh e' he'
        omega
    rw [hmin, updateMinFreq_minFreq, hproj, hfold, if_pos rfl]

/-- Witness for the amended claim C7: a two-resident state with
`maxAverageNum_ = 10` ages `[freq 6, freq 1]` to `[freq 1, freq 1]` and sets
`minFreq = 1`. -/
theorem c7_amended_lfu_aging_pass_witness :
    (([⟨1, 5, 6⟩, ⟨2, 6, 1⟩] : List LfuNode) ≠ [] ∧
      (([⟨1, 5, 6⟩, ⟨2, 6, 1⟩] : List LfuNode).map (fun e => e.key)).Nodup) ∧
    (LfuCache.handleOverMaxAverageNum ⟨3, 1, 10, 11, 33, [⟨1, 5, 6⟩, ⟨2, 6, 1⟩]⟩).nodes
      = [⟨1, 5, 1⟩, ⟨2, 6, 1⟩] ∧
    (LfuCache.handleOverMaxAverageNum ⟨3, 1, 10, 11, 33, [⟨1, 5, 6⟩, ⟨2, 6, 1⟩]⟩).minFreq = 1 := by
  have h := c7_amended_lfu_aging_pass ⟨3, 1, 10, 11, 33, [⟨1, 5, 6⟩, ⟨2, 6, 1⟩]⟩
    (by decide) (by decide)
  refine ⟨⟨by decide, by decide⟩, ?_, ?_⟩
  · rw [h.1]; decide
  · refine h.2.2.1 1 ?_ ?_ (by decide)
    · rw [h.1]; decide
    · rw [h.1]; decide

end XrmsCache

namespace XrmsCache

/-- Decomposition of a successful `find?`: the list splits at the first
match, and `eraseP` removes exactly that element. -/
lemma find?_eraseP_decomp {α : Type} (p : α → Bool) :
    ∀ (l : List α) (v : α), l.find? p = some v →
      ∃ l₁ l₂, l = l₁ ++ v :: l₂ ∧ (∀ x ∈ l₁, p x = false) ∧ l.eraseP p = l₁ ++ l₂ := by
  intro l
  induction l with
  | nil => intro v h; cases h
  | cons a t ih =>
    intro v h
    by_cases hp : p a
    · rw [List.find?_cons_of_pos _ hp] at h
      obtain rfl : a = v := Option.some.inj h
      refine ⟨[], t, rfl, ?_, ?_⟩
      · intro x hx
        cases hx
      · rw [List.eraseP_cons_of_pos hp]
        rfl
    · rw [List.find?_cons_of_neg _ hp] at h
      obtain ⟨l₁, l₂, h1, h2, h3⟩ := ih v h
      refine ⟨a :: l₁, l₂, by rw [h1]; rfl, ?_, ?_⟩
      · intro x hx
        rcases List.mem_cons.mp hx with rfl | hx'
        · simpa using hp
        · exact h2 x hx'
      · rw [List.eraseP_cons_of_neg hp, h3, List.cons_append]

/-- The aging pass does not change the key sequence of the residents. -/
lemma handleOver_keys (s : LfuState) (hnd : (s.nodes.map (fun e => e.key)).Nodup) :
    (LfuCache.handleOverMaxAverageNum s).nodes.map (fun e => e.key)
      = s.nodes.map (fun e => e.key) := by
  by_cases hne : s.nodes = []
  · unfold LfuCache.handleOverMaxAverageNum
    rw [if_pos (by simp [hne])]
  · rw [(handleOver_nodes_eq_map s hne hnd).1, List.map_map]
    rfl

/-- `addFreqNum` (counters plus possible aging) does not change the key
sequence of the residents. -/
lemma addFreqNum_keys (s : LfuState) (hnd : (s.nodes.map (fun e => e.key)).Nodup) :
    (LfuCache.addFreqNum s).nodes.map (fun e => e.key) = s.nodes.map (fun e => e.key) := by
  unfold LfuCache.addFreqNum
  have hn : (LfuCache.addFreqNumCounters s).nodes = s.nodes := rfl
  split
  · rw [handleOver_keys (LfuCache.addFreqNumCounters s) (by rw [hn]; exact hnd), hn]
  · rw [hn]

/-- Claim C8.  When the LFU cache is full and `put` inserts a new key, the
eviction victim is the head of bucket `minFreq` — the first resident in
bucket order whose frequency equals `minFreq`, i.e. the one appended
(inserted) earliest among them (FIFO within the bucket): the victim carries
the minimal frequency, every resident before it in bucket order has a
different frequency, and after the `put` the victim's key has left the index
and the buckets while the new key and every other resident are present. -/
theorem c8_lfu_eviction_victim (s : LfuState) (k v : Int) (vic : LfuNode)
    (hfull : (s.nodes.length : Int) = s.capacity)
    (habs : LfuCache.find s k = none)
    (hvic : s.nodes.find? (fun e => e.freq == s.minFreq) = some vic)
    (hmin : ∀ e ∈ s.nodes, s.minFreq ≤ e.freq)
    (hnd : (s.nodes.map (fun e => e.key)).Nodup) :
    vic ∈ s.nodes ∧ vic.freq = s.minFreq ∧ (∀ e ∈ s.nodes, vic.freq ≤ e.freq) ∧
    (∃ l₁ l₂, s.nodes = l₁ ++ vic :: l₂ ∧ ∀ x ∈ l₁, x.freq ≠ s.minFreq) ∧
    vic.key ∉ (LfuCache.put s k v).nodes.map (fun e => e.key) ∧
    k ∈ (LfuCache.put s k v).nodes.map (fun e => e.key) ∧
    (∀ e ∈ s.nodes, e.key ≠ vic.key → e.key ∈ (LfuCache.put s k v).nodes.map (fun e => e.key)) := by
  have hvicmem : vic ∈ s.nodes := List.mem_of_find?_eq_some hvic
  have hvicfreq : vic.freq = s.minFreq := by
    have := List.find?_some hvic
    simpa using this
  obtain ⟨l₁, l₂, hsplit, hl₁, herase⟩ := find?_eraseP_decomp _ s.nodes vic hvic
  have hlenpos : 0 < s.nodes.length := List.length_pos.mpr (List.ne_nil_of_mem hvicmem)
  have hcapne : ¬s.capacity = 0 := by omega
  have habs' : ∀ x ∈ s.nodes, ¬x.key = k := by
    intro x hx
    have := List.find?_eq_none.mp habs x hx
    simpa using this
  -- the key sequence of `s.nodes`, split at the victim
  have hndsplit : ((l₁.map (fun e => e.key)) ++ vic.key :: (l₂.map (fun e => e.key))).Nodup := by
    have : s.nodes.map (fun e => e.key)
        = (l₁.map (fun e => e.key)) ++ vic.key :: (l₂.map (fun e => e.key)) := by
      rw [hsplit, List.map_append, List.map_cons]
    exact this ▸ hnd
  obtain ⟨hnd₁, hndc, hdisj⟩ := List.nodup_append.mp hndsplit
  have hvic₁ : vic.key ∉ l₁.map (fun e => e.key) := by
    intro hmem
    exact hdisj hmem (List.mem_cons_self _ _)
  have hvic₂ : vic.key ∉ l₂.map (fun e => e.key) := (List.nodup_cons.mp hndc).1
  have hnderase : ((l₁ ++ l₂).map (fun e => e.key)).Nodup := by
    rw [List.map_append]
    refine (List.nodup_append).mpr ⟨hnd₁, (List.nodup_cons.mp hndc).2, ?_⟩
    intro a ha₁ ha₂
    exact hdisj ha₁ (List.mem_cons_of_mem _ ha₂)
  have hknotin : k ∉ (l₁ ++ l₂).map (fun e => e.key) := by
    intro hmem
    obtain ⟨x, hx, hxk⟩ := List.mem_map.mp hmem
    have hxs : x ∈ s.nodes := by
      rw [hsplit]
      rcases List.mem_append.mp hx with h | h
      · exact List.mem_append_left _ h
      · exact List.mem_append_right _ (List.mem_cons_of_mem _ h)
    exact habs' x hxs hxk
  -- unfold the put down to its final key sequence
  have hput : LfuCache.put s k v = LfuCache.putInternal s k v := by
    unfold LfuCache.put
    rw [if_neg hcapne, habs]
  have hkick : (LfuCache.kickOut s).nodes = l₁ ++ l₂ := by
    unfold LfuCache.kickOut
    rw [hvic]
    simpa [LfuCache.decreaseFreqNum] using herase
  have hkickfields : LfuCache.kickOut s
      = { LfuCache.kickOut s with nodes := l₁ ++ l₂ } := by
    rw [← hkick]
  have hnd₂ : ((((LfuCache.kickOut s).nodes ++ [(⟨k, v, 1⟩ : LfuNode)]).map
      (fun e => e.key))).Nodup := by
    rw [hkick, List.map_append]
    refine (List.nodup_append).mpr ⟨hnderase, List.nodup_singleton _, ?_⟩
    intro a ha₁ ha₂
    have : a = k := by simpa using ha₂
    exact hknotin (this ▸ ha₁)
  have hkeys : (LfuCache.put s k v).nodes.map (fun e => e.key)
      = (l₁ ++ l₂).map (fun e => e.key) ++ [k] := by
    rw [hput]
    unfold LfuCache.putInternal
    rw [if_pos hfull]
    have hfinal : (LfuCache.addFreqNum
        { LfuCache.kickOut s with
          nodes := (LfuCache.kickOut s).nodes ++ [(⟨k, v, 1⟩ : LfuNode)] }).nodes.map
            (fun e => e.key)
        = ((LfuCache.kickOut s).nodes ++ [(⟨k, v, 1⟩ : LfuNode)]).map (fun e => e.key) :=
      addFreqNum_keys _ hnd₂
    dsimp only
    rw [hfinal, hkick, List.map_append]
    simp
  refine ⟨hvicmem, hvicfreq, ?_, ?_, ?_, ?_, ?_⟩
  · intro e he
    rw [hvicfreq]
    exact hmin e he
  · refine ⟨l₁, l₂, hsplit, ?_⟩
    intro x hx
    have := hl₁ x hx
    simpa using this
  · rw [hkeys]
    intro hmem
    rcases List.mem_append.mp hmem with h | h
    · rw [List.map_append] at h
      rcases List.mem_append.mp h with h' | h'
      · exact hvic₁ h'
      · exact hvic₂ h'
    · have : vic.key = k := by simpa using h
      exact habs' vic hvicmem this
  · rw [hkeys]
    exact List.mem_append_right _ (by simp)
  · intro e he hne
    rw [hkeys]
    apply List.mem_append_left
    rw [hsplit] at he
    rcases List.mem_append.mp he with h | h
    · exact List.mem_map_of_mem _ (List.mem_append_left _ h)
    · rcases List.mem_cons.mp h with rfl | h'
      · exact absurd rfl hne
      · exact List.mem_map_of_mem _ (List.mem_append_right _ h')

/-- Witness for claim C8: a full three-entry cache with two frequency-1
residents evicts the first-bucketed one (key 2) when key 4 is inserted. -/
theorem c8_lfu_eviction_victim_witness :
    ((((⟨3, 1, 10, 1, 4, [⟨1, 10, 2⟩, ⟨2, 20, 1⟩, ⟨3, 30, 1⟩]⟩ : LfuState)).nodes.length : Int)
        = (3 : Int) ∧
      LfuCache.find ⟨3, 1, 10, 1, 4, [⟨1, 10, 2⟩, ⟨2, 20, 1⟩, ⟨3, 30, 1⟩]⟩ 4 = none) ∧
    (⟨2, 20, 1⟩ : LfuNode) ∈
      (⟨3, 1, 10, 1, 4, [⟨1, 10, 2⟩, ⟨2, 20, 1⟩, ⟨3, 30, 1⟩]⟩ : LfuState).nodes ∧
    (2 : Int) ∉ (LfuCache.put ⟨3, 1, 10, 1, 4, [⟨1, 10, 2⟩, ⟨2, 20, 1⟩, ⟨3, 30, 1⟩]⟩ 4 40).nodes.map
      (fun e => e.key) ∧
    (4 : Int) ∈ (LfuCache.put ⟨3, 1, 10, 1, 4, [⟨1, 10, 2⟩, ⟨2, 20, 1⟩, ⟨3, 30, 1⟩]⟩ 4 40).nodes.map
      (fun e => e.key) := by
  have h := c8_lfu_eviction_victim ⟨3, 1, 10, 1, 4, [⟨1, 10, 2⟩, ⟨2, 20, 1⟩, ⟨3, 30, 1⟩]⟩ 4 40
    ⟨2, 20, 1⟩ (by decide) (by decide) (by decide) (by decide) (by decide)
  exact ⟨⟨by decide, by decide⟩, h.1, h.2.2.2.2.1, h.2.2.2.2.2.1⟩

end XrmsCache

namespace XrmsCache

/-- `ArcLruPart::evictLeastRecent` leaves the capacity fields alone. -/
lemma arcLruEvict_fields (s : ArcLruState) :
    (ArcLruPart.evictLeastRecent s).capacity = s.capacity ∧
    (ArcLruPart.evictLeastRecent s).ghostCapacity = s.ghostCapacity ∧
    (ArcLruPart.evictLeastRecent s).transformThreshold = s.transformThreshold := by
  unfold ArcLruPart.evictLeastRecent
  split <;> exact ⟨rfl, rfl, rfl⟩

/-- `ArcLfuPart::evictLeastFrequent` leaves the capacity fields alone. -/
lemma arcLfuEvict_fields (s : ArcLfuState) :
    (ArcLfuPart.evictLeastFrequent s).capacity = s.capacity ∧
    (ArcLfuPart.evictLeastFrequent s).ghostCapacity = s.ghostCapacity ∧
    (ArcLfuPart.evictLeastFrequent s).transformThreshold = s.transformThreshold := by
  unfold ArcLfuPart.evictLeastFrequent
  split
  · exact ⟨rfl, rfl, rfl⟩
  · split <;> exact ⟨rfl, rfl, rfl⟩

/-- `decreaseCapacity` fails exactly at capacity 0, for both halves. -/
lemma decreaseCapacity_false_iff :
    (∀ r : ArcLruState, (ArcLruPart.decreaseCapacity r).1 = false ↔ r.capacity = 0) ∧
    (∀ r : ArcLfuState, (ArcLfuPart.decreaseCapacity r).1 = false ↔ r.capacity = 0) := by
  constructor
  · intro r
    unfold ArcLruPart.decreaseCapacity
    by_cases h : r.capacity = 0
    · rw [if_pos h]
      simpa using h
    · rw [if_neg h]
      simp [h]
  · intro r
    unfold ArcLfuPart.decreaseCapacity
    by_cases h : r.capacity = 0
    · rw [if_pos h]
      simpa using h
    · rw [if_neg h]
      simp [h]

/-- Claim C4.  `ArcLruPart::decreaseCapacity` and
`ArcLfuPart::decreaseCapacity` return `false` exactly when the half's
capacity is already 0; otherwise, when the half is full (`size == capacity`)
they first evict one resident — the LRU victim (the last main-list node),
resp. the least-frequent victim (the head of the `minFreq` bucket) — into
the half's own ghost list, then decrement the capacity by 1 and return
`true`. -/
theorem c4_decrease_capacity_spec (p : ArcLruState) (q : ArcLfuState)
    (vL : ArcEntry) (vF : ArcEntry)
    (hpc : p.capacity ≠ 0) (hpf : p.main.length = p.capacity)
    (hvL : p.main.getLast? = some vL)
    (hqc : q.capacity ≠ 0) (hqf : q.nodes.length = q.capacity)
    (hvF : q.nodes.find? (fun e => e.accessCount == q.minFreq) = some vF)
    (hqmin : ∀ e ∈ q.nodes, q.minFreq ≤ e.accessCount) :
    (∀ r : ArcLruState, (ArcLruPart.decreaseCapacity r).1 = false ↔ r.capacity = 0) ∧
    (∀ r : ArcLfuState, (ArcLfuPart.decreaseCapacity r).1 = false ↔ r.capacity = 0) ∧
    (ArcLruPart.decreaseCapacity p).1 = true ∧
    (ArcLruPart.decreaseCapacity p).2.capacity = p.capacity - 1 ∧
    (ArcLruPart.decreaseCapacity p).2.main = p.main.dropLast ∧
    vL.key ∈ (ArcLruPart.decreaseCapacity p).2.ghost ∧
    (ArcLfuPart.decreaseCapacity q).1 = true ∧
    (ArcLfuPart.decreaseCapacity q).2.capacity = q.capacity - 1 ∧
    (ArcLfuPart.decreaseCapacity q).2.nodes
      = q.nodes.eraseP (fun e => e.accessCount == q.minFreq) ∧
    (ArcLfuPart.decreaseCapacity q).2.nodes.length + 1 = q.nodes.length ∧
    vF.accessCount = q.minFreq ∧
    (∀ e ∈ q.nodes, vF.accessCount ≤ e.accessCount) ∧
    vF.key ∈ (ArcLfuPart.decreaseCapacity q).2.ghost := by
  have hvFfreq : vF.accessCount = q.minFreq := by
    have := List.find?_some hvF
    simpa using this
  have hvFmem : vF ∈ q.nodes := List.mem_of_find?_eq_some hvF
  have hqne : ¬q.nodes.isEmpty = true := by
    simp [List.isEmpty_iff]
    exact List.ne_nil_of_mem hvFmem
  obtain ⟨l₁, l₂, hsplit, _, herase⟩ := find?_eraseP_decomp _ q.nodes vF hvF
  have hlruEvict : ArcLruPart.evictLeastRecent p
      = { p with
          main := p.main.dropLast,
          ghost := vL.key ::
            (if p.ghost.length ≥ p.ghostCapacity then p.ghost.dropLast else p.ghost) } := by
    unfold ArcLruPart.evictLeastRecent
    rw [hvL]
  have hlfuEvict : (ArcLfuPart.evictLeastFrequent q).nodes
        = q.nodes.eraseP (fun e => e.accessCount == q.minFreq) ∧
      vF.key ∈ (ArcLfuPart.evictLeastFrequent q).ghost := by
    unfold ArcLfuPart.evictLeastFrequent
    rw [if_neg hqne, hvF]
    exact ⟨rfl, List.mem_append_right _ (by simp)⟩
  have hlru : ArcLruPart.decreaseCapacity p
      = (true, { ArcLruPart.evictLeastRecent p with
          capacity := (ArcLruPart.evictLeastRecent p).capacity - 1 }) := by
    unfold ArcLruPart.decreaseCapacity
    rw [if_neg hpc, if_pos hpf]
  have hlfu : ArcLfuPart.decreaseCapacity q
      = (true, { ArcLfuPart.evictLeastFrequent q with
          capacity := (ArcLfuPart.evictLeastFrequent q).capacity - 1 }) := by
    unfold ArcLfuPart.decreaseCapacity
    rw [if_neg hqc, if_pos hqf]
  have hlen : (q.nodes.eraseP (fun e => e.accessCount == q.minFreq)).length + 1
      = q.nodes.length := by
    rw [herase, hsplit]
    simp
    omega
  refine ⟨decreaseCapacity_false_iff.1, decreaseCapacity_false_iff.2, ?_, ?_, ?_, ?_, ?_, ?_,
    ?_, ?_, hvFfreq, ?_, ?_⟩
  · rw [hlru]
  · rw [hlru]
    exact congrArg (fun n => n - 1) (arcLruEvict_fields p).1
  · rw [hlru]
    show (ArcLruPart.evictLeastRecent p).main = p.main.dropLast
    rw [hlruEvict]
  · rw [hlru]
    show vL.key ∈ (ArcLruPart.evictLeastRecent p).ghost
    rw [hlruEvict]
    exact List.mem_cons_self _ _
  · rw [hlfu]
  · rw [hlfu]
    exact congrArg (fun n => n - 1) (arcLfuEvict_fields q).1
  · rw [hlfu]
    exact hlfuEvict.1
  · rw [hlfu]
    show (ArcLfuPart.evictLeastFrequent q).nodes.length + 1 = q.nodes.length
    rw [hlfuEvict.1]
    exact hlen
  · intro e he
    rw [hvFfreq]
    exact hqmin e he
  · rw [hlfu]
    exact hlfuEvict.2

/-- Witness for claim C4: a full recency half `[a, b]` with capacity 2 and a
full frequency half `[c(freq 1), d(freq 2)]` with capacity 2, `minFreq = 1`. -/
theorem c4_decrease_capacity_spec_witness :
    ((2 : Nat) ≠ 0 ∧
      (ArcLruPart.decreaseCapacity
        ⟨2, 2, 2, [⟨1, 10, 1⟩, ⟨2, 20, 1⟩], []⟩).2.main = [⟨1, 10, 1⟩] ∧
      (2 : Nat) ∈ (ArcLruPart.decreaseCapacity
        ⟨2, 2, 2, [⟨1, 10, 1⟩, ⟨2, 20, 1⟩], []⟩).2.ghost) ∧
    ((ArcLfuPart.decreaseCapacity ⟨2, 2, 2, 1, [⟨3, 30, 1⟩, ⟨4, 40, 2⟩], []⟩).2.nodes
        = [⟨4, 40, 2⟩] ∧
      (3 : Nat) ∈ (ArcLfuPart.decreaseCapacity
        ⟨2, 2, 2, 1, [⟨3, 30, 1⟩, ⟨4, 40, 2⟩], []⟩).2.ghost) := by
  have h := c4_decrease_capacity_spec
    ⟨2, 2, 2, [⟨1, 10, 1⟩, ⟨2, 20, 1⟩], []⟩
    ⟨2, 2, 2, 1, [⟨3, 30, 1⟩, ⟨4, 40, 2⟩], []⟩
    ⟨2, 20, 1⟩ ⟨3, 30, 1⟩
    (by decide) (by decide) (by decide) (by decide) (by decide) (by decide) (by decide)
  refine ⟨⟨by decide, ?_, ?_⟩, ?_, ?_⟩
  · rw [h.2.2.2.2.1]
    decide
  · exact h.2.2.2.2.2.1
  · rw [h.2.2.2.2.2.2.2.2.1]
    decide
  · exact h.2.2.2.2.2.2.2.2.2.2.2.2

end XrmsCache

namespace XrmsCache

/-- A fresh `ArcLruPart::put` on an empty part with non-zero capacity stores
the single node with access count 1 (the `ArcNode` constructor). -/
lemma arcLruPut_fresh (c K k v : Nat) (hc : c ≠ 0) :
    (ArcLruPart.put (ArcLruPart.mk c K) k v).2 = ⟨c, c, K, [⟨k, v, 1⟩], []⟩ := by
  unfold ArcLruPart.put ArcLruPart.mk
  rw [if_neg hc]
  dsimp [List.find?]
  unfold ArcLruPart.addNewNode
  rw [if_neg (by simpa using hc)]

/-- `ArcLruPart::get` on a part holding exactly the requested key: move to
front is the identity, the access count is incremented, and
`shouldTransform` reports whether the incremented count has reached the
threshold. -/
lemma arcLruGet_single (c gc K k v m : Nat) (g : List Nat) :
    ArcLruPart.get ⟨c, gc, K, [⟨k, v, m⟩], g⟩ k
      = (true, v, decide (m + 1 ≥ K), ⟨c, gc, K, [⟨k, v, m + 1⟩], g⟩) := by
  unfold ArcLruPart.get
  rw [List.find?_cons_of_pos _ (by simp)]
  simp [List.filter]

/-- Iterating `get` on the single-key part: after `j` hits the access count
is `1 + j`. -/
lemma arcLruIter_single (c gc K k v : Nat) (g : List Nat) : ∀ j : Nat,
    (fun t => (ArcLruPart.get t k).2.2.2)^[j] ⟨c, gc, K, [⟨k, v, 1⟩], g⟩
      = ⟨c, gc, K, [⟨k, v, 1 + j⟩], g⟩ := by
  intro j
  induction j with
  | zero => rfl
  | succ n ih =>
    rw [Function.iterate_succ_apply', ih]
    show (ArcLruPart.get ⟨c, gc, K, [⟨k, v, 1 + n⟩], g⟩ k).2.2.2 = _
    rw [arcLruGet_single]
    have : 1 + n + 1 = 1 + (n + 1) := by omega
    rw [this]

/-- Claim C10.  In the ARC recency half a node freshly inserted by `put`
starts with access count 1; the `j+1`-st subsequent `get` hit reports
`shouldTransform` exactly when the post-increment count `j + 2` has reached
the threshold `K` (`ArcCache::get` then promotes by `put`ting the key into
the frequency half).  Hence for `K ≥ 2` the first reporting `get` is number
`K - 1`: number `K - 1` (iterate `K - 2`) reports `true` and every earlier
`get` reports `false`; with the default `K = 2` the single `get` after the
initial `put` already reports `true`. -/
theorem c10_arc_promotion_threshold (c K k v : Nat) (hc : c ≠ 0) (hK : 2 ≤ K) :
    ((ArcLruPart.put (ArcLruPart.mk c K) k v).2).main = [⟨k, v, 1⟩] ∧
    (∀ j : Nat,
      ((fun t => (ArcLruPart.get t k).2.2.2)^[j]
        (ArcLruPart.put (ArcLruPart.mk c K) k v).2).main = [⟨k, v, 1 + j⟩]) ∧
    (∀ j : Nat,
      (ArcLruPart.get ((fun t => (ArcLruPart.get t k).2.2.2)^[j]
          (ArcLruPart.put (ArcLruPart.mk c K) k v).2) k).2.2.1 = decide (K ≤ j + 2)) ∧
    (ArcLruPart.get ((fun t => (ArcLruPart.get t k).2.2.2)^[K - 2]
        (ArcLruPart.put (ArcLruPart.mk c K) k v).2) k).2.2.1 = true ∧
    (∀ j : Nat, j + 1 < K - 1 →
      (ArcLruPart.get ((fun t => (ArcLruPart.get t k).2.2.2)^[j]
          (ArcLruPart.put (ArcLruPart.mk c K) k v).2) k).2.2.1 = false) := by
  have h0 := arcLruPut_fresh c K k v hc
  have hiter : ∀ j : Nat,
      (fun t => (ArcLruPart.get t k).2.2.2)^[j] (ArcLruPart.put (ArcLruPart.mk c K) k v).2
        = ⟨c, c, K, [⟨k, v, 1 + j⟩], []⟩ := by
    intro j
    rw [h0]
    exact arcLruIter_single c c K k v [] j
  have hflag : ∀ j : Nat,
      (ArcLruPart.get ((fun t => (ArcLruPart.get t k).2.2.2)^[j]
          (ArcLruPart.put (ArcLruPart.mk c K) k v).2) k).2.2.1 = decide (K ≤ j + 2) := by
    intro j
    rw [hiter j, arcLruGet_single]
    show decide (1 + j + 1 ≥ K) = decide (K ≤ j + 2)
    by_cases h : K ≤ j + 2
    · rw [decide_eq_true (show 1 + j + 1 ≥ K by omega), decide_eq_true h]
    · rw [decide_eq_false (show ¬(1 + j + 1 ≥ K) by omega), decide_eq_false h]
  refine ⟨by rw [h0], fun j => by rw [hiter j], hflag, ?_, ?_⟩
  · rw [hflag (K - 2)]
    exact decide_eq_true (by omega)
  · intro j hj
    rw [hflag j]
    exact decide_eq_false (by omega)

/-- Witness for claim C10 at capacity 4 and the default threshold `K = 2`:
the very first `get` after the `put` reports `shouldTransform`. -/
theorem c10_arc_promotion_threshold_witness :
    ((4 : Nat) ≠ 0 ∧ (2 : Nat) ≤ 2) ∧
    (ArcLruPart.get ((fun t => (ArcLruPart.get t 7).2.2.2)^[2 - 2]
        (ArcLruPart.put (ArcLruPart.mk 4 2) 7 9).2) 7).2.2.1 = true :=
  ⟨⟨by decide, by decide⟩,
    (c10_arc_promotion_threshold 4 2 7 9 (by decide) (by decide)).2.2.2.1⟩

end XrmsCache

namespace XrmsCache

/-! ### Invariants of the ARC composite

The inductive invariant used for the aggregate residency bound: each half's
resident count is bounded by its own capacity, resident keys are pairwise
distinct, the frequency half's `minFreq_` bucket is inhabited whenever the
half is non-empty, and the two capacities sum to twice the nominal
capacity. -/

/-- Invariant of the recency half. -/
def ArcLruInv (p : ArcLruState) : Prop :=
  p.main.length ≤ p.capacity ∧ (p.main.map (fun e => e.key)).Nodup

/-- Invariant of the frequency half. -/
def ArcLfuInv (q : ArcLfuState) : Prop :=
  q.nodes.length ≤ q.capacity ∧ (q.nodes.map (fun e => e.key)).Nodup ∧
    (q.nodes ≠ [] → ∃ e ∈ q.nodes, e.accessCount = q.minFreq)

/-- Invariant of the composite `ArcCache`. -/
def ArcInvariant (s : ArcState) : Prop :=
  ArcLruInv s.lru ∧ ArcLfuInv s.lfu ∧
    s.lru.capacity + s.lfu.capacity = 2 * s.capacity

instance (p : ArcLruState) : Decidable (ArcLruInv p) := by
  unfold ArcLruInv
  exact inferInstance

instance (q : ArcLfuState) : Decidable (ArcLfuInv q) := by
  unfold ArcLfuInv
  exact inferInstance

instance (s : ArcState) : Decidable (ArcInvariant s) := by
  unfold ArcInvariant
  exact inferInstance

/-- Two residents with equal keys are equal, in a list with distinct keys. -/
lemma key_inj {l : List ArcEntry} (hnd : (l.map (fun e => e.key)).Nodup)
    {x y : ArcEntry} (hx : x ∈ l) (hy : y ∈ l) (hkey : x.key = y.key) : x = y := by
  induction l with
  | nil => cases hx
  | cons a t ih =>
    have hnd' : ((t.map (fun e => e.key))).Nodup := by
      rw [List.map_cons] at hnd
      exact (List.nodup_cons.mp hnd).2
    have hamem : a.key ∉ t.map (fun e => e.key) := by
      rw [List.map_cons] at hnd
      exact (List.nodup_cons.mp hnd).1
    rcases List.mem_cons.mp hx with rfl | hx' <;> rcases List.mem_cons.mp hy with rfl | hy'
    · rfl
    · exact absurd (hkey ▸ List.mem_map_of_mem (fun e => e.key) hy') hamem
    · exact absurd (hkey ▸ List.mem_map_of_mem (fun e => e.key) hx') hamem
    · exact ih hnd' hx' hy'

/-- Keys surviving the by-key filter are exactly the other keys; dropped is
only the found node.  Requires distinct keys. -/
lemma filter_key_length {l : List ArcEntry} {k : Nat} {e : ArcEntry}
    (hnd : (l.map (fun x => x.key)).Nodup)
    (he : l.find? (fun x => x.key == k) = some e) :
    (l.filter (fun x => x.key != k)).length + 1 = l.length := by
  have hek : e.key = k := by
    have := List.find?_some he
    simpa using this
  have hemem : e ∈ l := List.mem_of_find?_eq_some he
  obtain ⟨l₁, l₂, hsplit, hl₁, _⟩ := find?_eraseP_decomp _ l e he
  have h₁ : l₁.filter (fun x => x.key != k) = l₁ := by
    apply List.filter_eq_self.mpr
    intro x hx
    have := hl₁ x hx
    simp only [bne]
    simp only [Bool.not_eq_true'] at this ⊢
    exact this
  have h₂ : l₂.filter (fun x => x.key != k) = l₂ := by
    apply List.filter_eq_self.mpr
    intro x hx
    have hxk : x.key ≠ k := by
      intro hcontra
      have hxl : x ∈ l := by
        rw [hsplit]
        exact List.mem_append_right _ (List.mem_cons_of_mem _ hx)
      have : x = e := key_inj hnd hxl hemem (by rw [hcontra, hek])
      subst this
      have hkeys : (l.map (fun x => x.key)).Nodup := hnd
      rw [hsplit, List.map_append, List.map_cons] at hkeys
      obtain ⟨-, hndc, -⟩ := List.nodup_append.mp hkeys
      exact (List.nodup_cons.mp hndc).1 (List.mem_map_of_mem (fun e => e.key) hx)
    simpa [bne] using hxk
  have h₃ : [e].filter (fun x => x.key != k) = [] := by
    simp [List.filter, bne, hek]
  rw [hsplit]
  simp only [List.filter_append, List.length_append]
  have : (e :: l₂).filter (fun x => x.key != k) = l₂ := by
    have : (e :: l₂) = [e] ++ l₂ := rfl
    rw [this, List.filter_append, h₃, h₂, List.nil_append]
  rw [h₁, this]
  simp
  omega

/-- The by-key filter never keeps the filtered key. -/
lemma filter_key_not_mem (l : List ArcEntry) (k : Nat) :
    k ∉ (l.filter (fun x => x.key != k)).map (fun e => e.key) := by
  intro hmem
  obtain ⟨x, hx, hxk⟩ := List.mem_map.mp hmem
  have := (List.mem_filter.mp hx).2
  rw [hxk] at this
  simp at this

/-- The by-key filter preserves key distinctness. -/
lemma filter_key_nodup {l : List ArcEntry} (k : Nat)
    (hnd : (l.map (fun x => x.key)).Nodup) :
    ((l.filter (fun x => x.key != k)).map (fun x => x.key)).Nodup :=
  hnd.sublist (List.Sublist.map _ (List.filter_sublist l))

/-- `dropLast` preserves key distinctness. -/
lemma dropLast_key_nodup {l : List ArcEntry}
    (hnd : (l.map (fun x => x.key)).Nodup) :
    ((l.dropLast).map (fun x => x.key)).Nodup :=
  hnd.sublist (List.Sublist.map _ (List.dropLast_sublist l))

/-- `eraseP` preserves key distinctness. -/
lemma eraseP_key_nodup {l : List ArcEntry} (p : ArcEntry → Bool)
    (hnd : (l.map (fun x => x.key)).Nodup) :
    ((l.eraseP p).map (fun x => x.key)).Nodup :=
  hnd.sublist (List.Sublist.map _ (List.eraseP_sublist l))

end XrmsCache

namespace XrmsCache

/-- `ArcLruPart::checkGhost` touches only the ghost list. -/
lemma arcLruCheckGhost_fields (p : ArcLruState) (k : Nat) :
    (ArcLruPart.checkGhost p k).2.main = p.main ∧
    (ArcLruPart.checkGhost p k).2.capacity = p.capacity := by
  unfold ArcLruPart.checkGhost
  split <;> exact ⟨rfl, rfl⟩

/-- `ArcLruPart::evictLeastRecent` preserves the half's invariant, keeps the
capacity, and removes one resident when there is one. -/
lemma arcLruEvict_inv (p : ArcLruState) (h : ArcLruInv p) :
    ArcLruInv (ArcLruPart.evictLeastRecent p) ∧
    (ArcLruPart.evictLeastRecent p).capacity = p.capacity ∧
    (p.main ≠ [] → (ArcLruPart.evictLeastRecent p).main.length + 1 = p.main.length) := by
  unfold ArcLruPart.evictLeastRecent
  cases hg : p.main.getLast? with
  | none =>
    refine ⟨h, rfl, ?_⟩
    intro hne
    exact absurd (List.getLast?_eq_none_iff.mp hg) hne
  | some v =>
    dsimp only
    have hne : p.main ≠ [] := by
      intro hcontra
      rw [hcontra] at hg
      cases hg
    have hlen : p.main.dropLast.length + 1 = p.main.length := by
      rw [List.length_dropLast]
      have : 0 < p.main.length := List.length_pos.mpr hne
      omega
    refine ⟨⟨?_, dropLast_key_nodup h.2⟩, rfl, fun _ => hlen⟩
    show p.main.dropLast.length ≤ p.capacity
    have := h.1
    omega

/-- `ArcLruPart::put` preserves the half's invariant and its capacity. -/
lemma arcLruPut_inv (p : ArcLruState) (k v : Nat) (h : ArcLruInv p) :
    ArcLruInv (ArcLruPart.put p k v).2 ∧
    (ArcLruPart.put p k v).2.capacity = p.capacity := by
  unfold ArcLruPart.put
  by_cases hc : p.capacity = 0
  · rw [if_pos hc]
    exact ⟨h, rfl⟩
  · rw [if_neg hc]
    cases hf : p.main.find? (fun e => e.key == k) with
    | some e =>
      dsimp only
      unfold ArcLruPart.updateExistingNode
      have hek : e.key = k := by
        have := List.find?_some hf
        simpa using this
      have hlen := filter_key_length h.2 hf
      rw [hek]
      dsimp only
      constructor
      · constructor
        · show (p.main.filter (fun x => x.key != k)).length + 1 ≤ p.capacity
          have := h.1
          omega
        · rw [List.map_cons]
          refine List.nodup_cons.mpr ⟨?_, filter_key_nodup k h.2⟩
          show k ∉ _
          exact filter_key_not_mem p.main k
      · rfl
    | none =>
      dsimp only
      unfold ArcLruPart.addNewNode
      have hknot : ∀ x ∈ p.main, x.key ≠ k := by
        intro x hx
        have := List.find?_eq_none.mp hf x hx
        simpa using this
      by_cases hfull : p.main.length ≥ p.capacity
      · rw [if_pos hfull]
        obtain ⟨hinv', hcap', hlen'⟩ := arcLruEvict_inv p h
        have hne : p.main ≠ [] := by
          intro hcontra
          rw [hcontra] at hfull
          simp at hfull
          omega
        have hlen := hlen' hne
        have hsub : ∀ x ∈ (ArcLruPart.evictLeastRecent p).main, x ∈ p.main := by
          intro x hx
          unfold ArcLruPart.evictLeastRecent at hx
          cases hg : p.main.getLast? with
          | none => rw [hg] at hx; exact hx
          | some w =>
            rw [hg] at hx
            exact List.dropLast_sublist p.main |>.mem hx
        constructor
        · constructor
          · dsimp only
            rw [List.length_cons]
            have h1 := h.1
            omega
          · dsimp only
            rw [List.map_cons]
            refine List.nodup_cons.mpr ⟨?_, hinv'.2⟩
            intro hmem
            obtain ⟨x, hx, hxk⟩ := List.mem_map.mp hmem
            exact hknot x (hsub x hx) hxk
        · dsimp only
          rw [hcap']
      · rw [if_neg hfull]
        constructor
        · constructor
          · dsimp only
            rw [List.length_cons]
            omega
          · dsimp only
            rw [List.map_cons]
            refine List.nodup_cons.mpr ⟨?_, h.2⟩
            intro hmem
            obtain ⟨x, hx, hxk⟩ := List.mem_map.mp hmem
            exact hknot x hx hxk
        · rfl

/-- `ArcLruPart::get` preserves the half's invariant, its capacity, and its
resident count. -/
lemma arcLruGet_inv (p : ArcLruState) (k : Nat) (h : ArcLruInv p) :
    ArcLruInv (ArcLruPart.get p k).2.2.2 ∧
    (ArcLruPart.get p k).2.2.2.capacity = p.capacity ∧
    (ArcLruPart.get p k).2.2.2.main.length = p.main.length := by
  unfold ArcLruPart.get
  cases hf : p.main.find? (fun e => e.key == k) with
  | some e =>
    dsimp only
    have hek : e.key = k := by
      have := List.find?_some hf
      simpa using this
    have hlen := filter_key_length h.2 hf
    refine ⟨⟨?_, ?_⟩, rfl, ?_⟩
    · show (_ :: p.main.filter (fun x => x.key != k)).length ≤ p.capacity
      rw [List.length_cons]
      have := h.1
      omega
    · rw [List.map_cons]
      refine List.nodup_cons.mpr ⟨?_, filter_key_nodup k h.2⟩
      show e.key ∉ _
      rw [hek]
      exact filter_key_not_mem p.main k
    · rw [List.length_cons]
      omega
  | none =>
    exact ⟨h, rfl, rfl⟩

/-- `ArcLruPart::decreaseCapacity` preserves the half's invariant; on success
the capacity drops by one, on failure nothing changes. -/
lemma arcLruDec_inv (p : ArcLruState) (h : ArcLruInv p) :
    ArcLruInv (ArcLruPart.decreaseCapacity p).2 ∧
    ((ArcLruPart.decreaseCapacity p).1 = true →
      (ArcLruPart.decreaseCapacity p).2.capacity + 1 = p.capacity) ∧
    ((ArcLruPart.decreaseCapacity p).1 = false → (ArcLruPart.decreaseCapacity p).2 = p) := by
  unfold ArcLruPart.decreaseCapacity
  by_cases hc : p.capacity = 0
  · rw [if_pos hc]
    refine ⟨h, ?_, fun _ => rfl⟩
    intro hcontra
    cases hcontra
  · rw [if_neg hc]
    by_cases hfull : p.main.length = p.capacity
    · rw [if_pos hfull]
      obtain ⟨hinv', hcap', hlen'⟩ := arcLruEvict_inv p h
      have hne : p.main ≠ [] := by
        intro hcontra
        rw [hcontra] at hfull
        simp at hfull
        omega
      have hlen := hlen' hne
      refine ⟨⟨?_, hinv'.2⟩, ?_, ?_⟩
      · dsimp only
        rw [hcap']
        omega
      · intro _
        dsimp only
        rw [hcap']
        omega
      · intro hcontra
        cases hcontra
    · rw [if_neg hfull]
      refine ⟨⟨?_, h.2⟩, ?_, ?_⟩
      · dsimp only
        have := h.1
        omega
      · intro _
        dsimp only
        omega
      · intro hcontra
        cases hcontra

end XrmsCache

namespace XrmsCache

/-- The fold inside `minAcc` yields its start value or a member's count. -/
lemma foldlN_min_cases (t : List ArcEntry) : ∀ i : Nat,
    t.foldl (fun a e => min a e.accessCount) i = i ∨
      ∃ e ∈ t, t.foldl (fun a e => min a e.accessCount) i = e.accessCount := by
  induction t with
  | nil => intro i; exact Or.inl rfl
  | cons h t ih =>
    intro i
    rcases ih (min i h.accessCount) with heq | ⟨e, he, heq⟩
    · rcases min_cases i h.accessCount with ⟨hm, _⟩ | ⟨hm, _⟩
      · exact Or.inl (by rw [List.foldl_cons, heq, hm])
      · exact Or.inr ⟨h, List.mem_cons_self h t, by rw [List.foldl_cons, heq, hm]⟩
    · exact Or.inr ⟨e, List.mem_cons_of_mem h he, by rw [List.foldl_cons, heq]⟩

end XrmsCache

namespace XrmsCache

/-- `minAcc` of a non-empty list is attained by some member. -/
lemma minAcc_mem (l : List ArcEntry) (dflt : Nat) (hne : l ≠ []) :
    ∃ e ∈ l, e.accessCount = ArcLfuPart.minAcc l dflt := by
  cases l with
  | nil => exact absurd rfl hne
  | cons h t =>
    unfold ArcLfuPart.minAcc
    rcases foldlN_min_cases t h.accessCount with heq | ⟨e, he, heq⟩
    · exact ⟨h, List.mem_cons_self h t, heq.symm⟩
    · exact ⟨e, List.mem_cons_of_mem h he, heq.symm⟩

/-- `ArcLfuPart::checkGhost` touches only the ghost list. -/
lemma arcLfuCheckGhost_fields (q : ArcLfuState) (k : Nat) :
    (ArcLfuPart.checkGhost q k).2.nodes = q.nodes ∧
    (ArcLfuPart.checkGhost q k).2.minFreq = q.minFreq ∧
    (ArcLfuPart.checkGhost q k).2.capacity = q.capacity := by
  unfold ArcLfuPart.checkGhost
  split <;> exact ⟨rfl, rfl, rfl⟩

/-- `ArcLfuPart::evictLeastFrequent` preserves the half's invariant, keeps
the capacity, removes exactly one resident when the half is non-empty (the
`minFreq_` bucket is then inhabited by the invariant), and introduces no new
residents. -/
lemma arcLfuEvict_inv (q : ArcLfuState) (h : ArcLfuInv q) :
    ArcLfuInv (ArcLfuPart.evictLeastFrequent q) ∧
    (ArcLfuPart.evictLeastFrequent q).capacity = q.capacity ∧
    (q.nodes ≠ [] → (ArcLfuPart.evictLeastFrequent q).nodes.length + 1 = q.nodes.length) ∧
    (∀ x ∈ (ArcLfuPart.evictLeastFrequent q).nodes, x ∈ q.nodes) := by
  by_cases hne : q.nodes = []
  · have hemp : q.nodes.isEmpty = true := by simp [hne]
    unfold ArcLfuPart.evictLeastFrequent
    rw [if_pos hemp]
    exact ⟨h, rfl, fun hc => absurd hne hc, fun x hx => hx⟩
  · have hemp : ¬q.nodes.isEmpty = true := by simpa [List.isEmpty_iff] using hne
    obtain ⟨w, hw, hwacc⟩ := h.2.2 hne
    have hsome : (q.nodes.find? (fun e => e.accessCount == q.minFreq)).isSome :=
      List.find?_isSome.mpr ⟨w, hw, by simp [hwacc]⟩
    obtain ⟨vic, hvic⟩ := Option.isSome_iff_exists.mp hsome
    obtain ⟨l₁, l₂, hsplit, _, herase⟩ := find?_eraseP_decomp _ q.nodes vic hvic
    have hlen : (q.nodes.eraseP (fun e => e.accessCount == q.minFreq)).length + 1
        = q.nodes.length := by
      rw [herase, hsplit]
      simp
      omega
    have heq : ArcLfuPart.evictLeastFrequent q = { q with
        nodes := q.nodes.eraseP (fun e => e.accessCount == q.minFreq),
        minFreq :=
          if (q.nodes.eraseP (fun e => e.accessCount == q.minFreq)).all
              (fun x => x.accessCount != q.minFreq) then
            if (q.nodes.eraseP (fun e => e.accessCount == q.minFreq)).isEmpty then q.minFreq
            else ArcLfuPart.minAcc (q.nodes.eraseP (fun e => e.accessCount == q.minFreq))
              q.minFreq
          else q.minFreq,
        ghost := (if q.ghost.length ≥ q.ghostCapacity then q.ghost.tail else q.ghost)
          ++ [vic.key] } := by
      unfold ArcLfuPart.evictLeastFrequent
      rw [if_neg hemp, hvic]
    rw [heq]
    have hsub : ∀ x ∈ q.nodes.eraseP (fun e => e.accessCount == q.minFreq), x ∈ q.nodes :=
      fun x hx => (List.eraseP_sublist q.nodes).mem hx
    refine ⟨⟨?_, eraseP_key_nodup _ h.2.1, ?_⟩, rfl, fun _ => hlen, hsub⟩
    · show (q.nodes.eraseP (fun e => e.accessCount == q.minFreq)).length ≤ q.capacity
      have := h.1
      omega
    · intro hne'
      have hne'' : q.nodes.eraseP (fun e => e.accessCount == q.minFreq) ≠ [] := hne'
      by_cases hall : (q.nodes.eraseP (fun e => e.accessCount == q.minFreq)).all
          (fun x => x.accessCount != q.minFreq) = true
      · have hempE : ¬(q.nodes.eraseP (fun e => e.accessCount == q.minFreq)).isEmpty = true := by
          simpa [List.isEmpty_iff] using hne''
        obtain ⟨e, he, hacc⟩ := minAcc_mem _ q.minFreq hne''
        refine ⟨e, he, ?_⟩
        show e.accessCount = (if _ then _ else _)
        rw [if_pos hall, if_neg hempE]
        exact hacc
      · have hwit : ∃ y ∈ q.nodes.eraseP (fun e => e.accessCount == q.minFreq),
            y.accessCount = q.minFreq := by
          rw [List.all_eq_true] at hall
          push_neg at hall
          obtain ⟨y, hy, hyp⟩ := hall
          exact ⟨y, hy, by simpa using hyp⟩
        obtain ⟨y, hy, hyacc⟩ := hwit
        refine ⟨y, hy, ?_⟩
        show y.accessCount = (if _ then _ else _)
        rw [if_neg hall]
        exact hyacc

end XrmsCache

namespace XrmsCache

/-- `ArcLfuPart::updateNodeFrequency` preserves the half's invariant, its
capacity, and its resident count, when applied to (a value-updated copy of)
a resident node. -/
lemma arcLfuUpdateFreq_inv (q : ArcLfuState) (e : ArcEntry) (h : ArcLfuInv q)
    (e0 : ArcEntry) (he0 : e0 ∈ q.nodes) (hkey : e0.key = e.key)
    (hacc : e0.accessCount = e.accessCount) :
    ArcLfuInv (ArcLfuPart.updateNodeFrequency q e) ∧
    (ArcLfuPart.updateNodeFrequency q e).capacity = q.capacity ∧
    (ArcLfuPart.updateNodeFrequency q e).nodes.length = q.nodes.length := by
  have hfind : q.nodes.find? (fun x => x.key == e.key) = some e0 := by
    have hsome : (q.nodes.find? (fun x => x.key == e.key)).isSome :=
      List.find?_isSome.mpr ⟨e0, he0, by simp [hkey]⟩
    obtain ⟨w, hw⟩ := Option.isSome_iff_exists.mp hsome
    have hwmem := List.mem_of_find?_eq_some hw
    have hwkey : w.key = e.key := by simpa using List.find?_some hw
    rw [hw]
    exact congrArg some (key_inj h.2.1 hwmem he0 (by rw [hwkey, hkey]))
  have hlen := filter_key_length h.2.1 hfind
  have hqne : q.nodes ≠ [] := List.ne_nil_of_mem he0
  unfold ArcLfuPart.updateNodeFrequency
  refine ⟨⟨?_, ?_, ?_⟩, rfl, ?_⟩
  · show (q.nodes.filter (fun x : ArcEntry => x.key != e.key)
        ++ [{ e with accessCount := e.accessCount + 1 }]).length ≤ q.capacity
    rw [List.length_append]
    have := h.1
    simp only [List.length_singleton]
    omega
  · show (((q.nodes.filter (fun x : ArcEntry => x.key != e.key))
        ++ [{ e with accessCount := e.accessCount + 1 }]).map (fun x : ArcEntry => x.key)).Nodup
    rw [List.map_append]
    refine List.nodup_append.mpr ⟨filter_key_nodup e.key h.2.1, by simp, ?_⟩
    intro a ha₁ ha₂
    have hak : a = e.key := by simpa using ha₂
    exact filter_key_not_mem q.nodes e.key (hak ▸ ha₁)
  · intro _
    by_cases hcond : ((q.nodes.filter (fun x => x.key != e.key)).all
        (fun x => x.accessCount != e.accessCount)) ∧ e.accessCount = q.minFreq
    · refine ⟨{ e with accessCount := e.accessCount + 1 },
        List.mem_append_right _ (by simp), ?_⟩
      show e.accessCount + 1 = (if _ then _ else _)
      rw [if_pos hcond]
    · by_cases hfm : e.accessCount = q.minFreq
      · have hnall : ¬((q.nodes.filter (fun x => x.key != e.key)).all
            (fun x => x.accessCount != e.accessCount) = true) :=
          fun hcontra => hcond ⟨hcontra, hfm⟩
        rw [List.all_eq_true] at hnall
        push_neg at hnall
        obtain ⟨y, hy, hyp⟩ := hnall
        have hyacc : y.accessCount = e.accessCount := by simpa using hyp
        refine ⟨y, List.mem_append_left _ hy, ?_⟩
        show y.accessCount = (if _ then _ else _)
        rw [if_neg hcond, ← hfm]
        exact hyacc
      · obtain ⟨w, hw, hwacc⟩ := h.2.2 hqne
        have hwkey : w.key ≠ e.key := by
          intro hcontra
          have hwe : w = e0 := key_inj h.2.1 hw he0 (hcontra.trans hkey.symm)
          rw [hwe, hacc] at hwacc
          exact hfm hwacc
        refine ⟨w, List.mem_append_left _
          (List.mem_filter.mpr ⟨hw, by simpa [bne] using hwkey⟩), ?_⟩
        show w.accessCount = (if _ then _ else _)
        rw [if_neg hcond]
        exact hwacc
  · show (q.nodes.filter (fun x : ArcEntry => x.key != e.key)
        ++ [{ e with accessCount := e.accessCount + 1 }]).length = q.nodes.length
    rw [List.length_append]
    simp only [List.length_singleton]
    omega

/-- `ArcLfuPart::put` preserves the half's invariant and its capacity. -/
lemma arcLfuPut_inv (q : ArcLfuState) (k v : Nat) (h : ArcLfuInv q) :
    ArcLfuInv (ArcLfuPart.put q k v).2 ∧
    (ArcLfuPart.put q k v).2.capacity = q.capacity := by
  unfold ArcLfuPart.put
  by_cases hc : q.capacity = 0
  · rw [if_pos hc]
    exact ⟨h, rfl⟩
  · rw [if_neg hc]
    cases hf : q.nodes.find? (fun e => e.key == k) with
    | some e =>
      dsimp only
      unfold ArcLfuPart.updateExistingNode
      obtain ⟨hi, hcap, _⟩ :=
        arcLfuUpdateFreq_inv q { e with value := v } h e (List.mem_of_find?_eq_some hf) rfl rfl
      exact ⟨hi, hcap⟩
    | none =>
      dsimp only
      unfold ArcLfuPart.addNewNode
      have hknot : ∀ x ∈ q.nodes, x.key ≠ k := by
        intro x hx
        have := List.find?_eq_none.mp hf x hx
        simpa using this
      by_cases hfull : q.nodes.length ≥ q.capacity
      · rw [if_pos hfull]
        obtain ⟨hi', hcap', hlen', hsub'⟩ := arcLfuEvict_inv q h
        have hne : q.nodes ≠ [] := by
          intro hc0
          rw [hc0] at hfull
          simp at hfull
          omega
        have hlen := hlen' hne
        refine ⟨⟨?_, ?_, ?_⟩, ?_⟩
        · show ((ArcLfuPart.evictLeastFrequent q).nodes ++ [(⟨k, v, 1⟩ : ArcEntry)]).length
            ≤ (ArcLfuPart.evictLeastFrequent q).capacity
          rw [List.length_append, hcap']
          have := h.1
          simp only [List.length_singleton]
          omega
        · show (((ArcLfuPart.evictLeastFrequent q).nodes ++ [(⟨k, v, 1⟩ : ArcEntry)]).map
            (fun x : ArcEntry => x.key)).Nodup
          rw [List.map_append]
          refine List.nodup_append.mpr ⟨hi'.2.1, by simp, ?_⟩
          intro a ha₁ ha₂
          have hak : a = k := by simpa using ha₂
          obtain ⟨x, hx, hxk⟩ := List.mem_map.mp ha₁
          exact hknot x (hsub' x hx) (by rw [hxk, hak])
        · intro _
          show ∃ x ∈ (ArcLfuPart.evictLeastFrequent q).nodes ++ [(⟨k, v, 1⟩ : ArcEntry)],
            x.accessCount = 1
          exact ⟨⟨k, v, 1⟩, List.mem_append_right _ (by simp), rfl⟩
        · show (ArcLfuPart.evictLeastFrequent q).capacity = q.capacity
          exact hcap'
      · rw [if_neg hfull]
        refine ⟨⟨?_, ?_, ?_⟩, rfl⟩
        · show (q.nodes ++ [(⟨k, v, 1⟩ : ArcEntry)]).length ≤ q.capacity
          rw [List.length_append]
          simp only [List.length_singleton]
          omega
        · show ((q.nodes ++ [(⟨k, v, 1⟩ : ArcEntry)]).map (fun x : ArcEntry => x.key)).Nodup
          rw [List.map_append]
          refine List.nodup_append.mpr ⟨h.2.1, by simp, ?_⟩
          intro a ha₁ ha₂
          have hak : a = k := by simpa using ha₂
          obtain ⟨x, hx, hxk⟩ := List.mem_map.mp ha₁
          exact hknot x hx (by rw [hxk, hak])
        · intro _
          show ∃ x ∈ q.nodes ++ [(⟨k, v, 1⟩ : ArcEntry)], x.accessCount = 1
          exact ⟨⟨k, v, 1⟩, List.mem_append_right _ (by simp), rfl⟩

/-- `ArcLfuPart::get` preserves the half's invariant, its capacity, and its
resident count. -/
lemma arcLfuGet_inv (q : ArcLfuState) (k : Nat) (h : ArcLfuInv q) :
    ArcLfuInv (ArcLfuPart.get q k).2.2 ∧
    (ArcLfuPart.get q k).2.2.capacity = q.capacity ∧
    (ArcLfuPart.get q k).2.2.nodes.length = q.nodes.length := by
  unfold ArcLfuPart.get
  cases hf : q.nodes.find? (fun e => e.key == k) with
  | some e =>
    dsimp only
    exact arcLfuUpdateFreq_inv q e h e (List.mem_of_find?_eq_some hf) rfl rfl
  | none =>
    exact ⟨h, rfl, rfl⟩

/-- `ArcLfuPart::decreaseCapacity` preserves the half's invariant; on success
the capacity drops by one, on failure nothing changes. -/
lemma arcLfuDec_inv (q : ArcLfuState) (h : ArcLfuInv q) :
    ArcLfuInv (ArcLfuPart.decreaseCapacity q).2 ∧
    ((ArcLfuPart.decreaseCapacity q).1 = true →
      (ArcLfuPart.decreaseCapacity q).2.capacity + 1 = q.capacity) ∧
    ((ArcLfuPart.decreaseCapacity q).1 = false → (ArcLfuPart.decreaseCapacity q).2 = q) := by
  unfold ArcLfuPart.decreaseCapacity
  by_cases hc : q.capacity = 0
  · rw [if_pos hc]
    refine ⟨h, ?_, fun _ => rfl⟩
    intro hcontra
    cases hcontra
  · rw [if_neg hc]
    by_cases hfull : q.nodes.length = q.capacity
    · rw [if_pos hfull]
      obtain ⟨hi', hcap', hlen', _⟩ := arcLfuEvict_inv q h
      have hne : q.nodes ≠ [] := by
        intro hc0
        rw [hc0] at hfull
        simp at hfull
        omega
      have hlen := hlen' hne
      refine ⟨⟨?_, hi'.2.1, hi'.2.2⟩, ?_, ?_⟩
      · show (ArcLfuPart.evictLeastFrequent q).nodes.length
          ≤ (ArcLfuPart.evictLeastFrequent q).capacity - 1
        rw [hcap']
        omega
      · intro _
        show (ArcLfuPart.evictLeastFrequent q).capacity - 1 + 1 = q.capacity
        rw [hcap']
        omega
      · intro hcontra
        cases hcontra
    · rw [if_neg hfull]
      refine ⟨⟨?_, h.2.1, h.2.2⟩, ?_, ?_⟩
      · show q.nodes.length ≤ q.capacity - 1
        have := h.1
        omega
      · intro _
        show q.capacity - 1 + 1 = q.capacity
        omega
      · intro hcontra
        cases hcontra

end XrmsCache

namespace XrmsCache

/-- Transfer of the recency-half invariant along equal residents and
non-decreasing capacity. -/
lemma arcLruInv_congr {p p' : ArcLruState} (hm : p'.main = p.main)
    (hc : p.capacity ≤ p'.capacity) (h : ArcLruInv p) : ArcLruInv p' := by
  refine ⟨?_, ?_⟩
  · rw [hm]
    exact le_trans h.1 hc
  · rw [hm]
    exact h.2

/-- Transfer of the frequency-half invariant along equal residents, equal
`minFreq`, and non-decreasing capacity. -/
lemma arcLfuInv_congr {q q' : ArcLfuState} (hn : q'.nodes = q.nodes)
    (hm : q'.minFreq = q.minFreq) (hc : q.capacity ≤ q'.capacity)
    (h : ArcLfuInv q) : ArcLfuInv q' := by
  refine ⟨?_, ?_, ?_⟩
  · rw [hn]
    exact le_trans h.1 hc
  · rw [hn]
    exact h.2.1
  · rw [hn, hm]
    exact h.2.2

/-- `ArcCache::checkGhostCaches` preserves the composite invariant and the
nominal capacity: the paired shrink/grow keeps the capacity sum, an
unpaired failed shrink changes nothing. -/
lemma arcCheckGhost_inv (s : ArcState) (k : Nat) (h : ArcInvariant s) :
    ArcInvariant (ArcCache.checkGhostCaches s k).2 ∧
    (ArcCache.checkGhostCaches s k).2.capacity = s.capacity := by
  obtain ⟨hlru, hlfu, hsum⟩ := h
  have hfL := arcLruCheckGhost_fields s.lru k
  have hfF := arcLfuCheckGhost_fields s.lfu k
  unfold ArcCache.checkGhostCaches
  by_cases h1 : (ArcLruPart.checkGhost s.lru k).1 = true
  · rw [if_pos h1]
    obtain ⟨hqi, hqsucc, hqfail⟩ := arcLfuDec_inv s.lfu hlfu
    by_cases h2 : (ArcLfuPart.decreaseCapacity s.lfu).1 = true
    · rw [if_pos h2]
      have hqcap := hqsucc h2
      have hcap1 : (ArcLruPart.increaseCapacity (ArcLruPart.checkGhost s.lru k).2).capacity
          = s.lru.capacity + 1 := by
        show (ArcLruPart.checkGhost s.lru k).2.capacity + 1 = s.lru.capacity + 1
        rw [hfL.2]
      have hL : ArcLruInv (ArcLruPart.increaseCapacity (ArcLruPart.checkGhost s.lru k).2) :=
        arcLruInv_congr hfL.1 (by omega) hlru
      refine ⟨⟨hL, hqi, ?_⟩, rfl⟩
      show (ArcLruPart.increaseCapacity (ArcLruPart.checkGhost s.lru k).2).capacity
          + (ArcLfuPart.decreaseCapacity s.lfu).2.capacity = 2 * s.capacity
      omega
    · rw [if_neg h2]
      have h2f : (ArcLfuPart.decreaseCapacity s.lfu).1 = false :=
        Bool.eq_false_iff.mpr h2
      have hqeq := hqfail h2f
      have hL : ArcLruInv (ArcLruPart.checkGhost s.lru k).2 :=
        arcLruInv_congr hfL.1 (le_of_eq hfL.2.symm) hlru
      have hF2 : ArcLfuInv (ArcLfuPart.decreaseCapacity s.lfu).2 := by
        rw [hqeq]
        exact hlfu
      refine ⟨⟨hL, hF2, ?_⟩, rfl⟩
      show (ArcLruPart.checkGhost s.lru k).2.capacity
          + (ArcLfuPart.decreaseCapacity s.lfu).2.capacity = 2 * s.capacity
      rw [hfL.2, hqeq]
      exact hsum
  · rw [if_neg h1]
    by_cases h3 : (ArcLfuPart.checkGhost s.lfu k).1 = true
    · rw [if_pos h3]
      obtain ⟨hpi, hpsucc, hpfail⟩ := arcLruDec_inv s.lru hlru
      by_cases h4 : (ArcLruPart.decreaseCapacity s.lru).1 = true
      · rw [if_pos h4]
        have hpcap := hpsucc h4
        have hcap1 : (ArcLfuPart.increaseCapacity (ArcLfuPart.checkGhost s.lfu k).2).capacity
            = s.lfu.capacity + 1 := by
          show (ArcLfuPart.checkGhost s.lfu k).2.capacity + 1 = s.lfu.capacity + 1
          rw [hfF.2.2]
        have hF : ArcLfuInv (ArcLfuPart.increaseCapacity (ArcLfuPart.checkGhost s.lfu k).2) :=
          arcLfuInv_congr hfF.1 hfF.2.1 (by omega) hlfu
        refine ⟨⟨hpi, hF, ?_⟩, rfl⟩
        show (ArcLruPart.decreaseCapacity s.lru).2.capacity
            + (ArcLfuPart.increaseCapacity (ArcLfuPart.checkGhost s.lfu k).2).capacity
              = 2 * s.capacity
        omega
      · rw [if_neg h4]
        have h4f : (ArcLruPart.decreaseCapacity s.lru).1 = false :=
          Bool.eq_false_iff.mpr h4
        have hpeq := hpfail h4f
        have hF : ArcLfuInv (ArcLfuPart.checkGhost s.lfu k).2 :=
          arcLfuInv_congr hfF.1 hfF.2.1 (le_of_eq hfF.2.2.symm) hlfu
        have hL2 : ArcLruInv (ArcLruPart.decreaseCapacity s.lru).2 := by
          rw [hpeq]
          exact hlru
        refine ⟨⟨hL2, hF, ?_⟩, rfl⟩
        show (ArcLruPart.decreaseCapacity s.lru).2.capacity
            + (ArcLfuPart.checkGhost s.lfu k).2.capacity = 2 * s.capacity
        rw [hpeq, hfF.2.2]
        exact hsum
    · rw [if_neg h3]
      exact ⟨⟨hlru, hlfu, hsum⟩, rfl⟩

end XrmsCache

namespace XrmsCache

/-- `ArcCache::put` preserves the composite invariant and the nominal
capacity. -/
lemma arcPut_inv (s : ArcState) (k v : Nat) (h : ArcInvariant s) :
    ArcInvariant (ArcCache.put s k v) ∧ (ArcCache.put s k v).capacity = s.capacity := by
  obtain ⟨hcg, hcgcap⟩ := arcCheckGhost_inv s k h
  obtain ⟨h1l, h1f, h1sum⟩ := hcg
  obtain ⟨hpl, hplcap⟩ := arcLruPut_inv (ArcCache.checkGhostCaches s k).2.lru k v h1l
  obtain ⟨hpf, hpfcap⟩ := arcLfuPut_inv (ArcCache.checkGhostCaches s k).2.lfu k v h1f
  unfold ArcCache.put
  by_cases hg : (ArcCache.checkGhostCaches s k).1 = true
  · rw [hg, if_neg (by simp)]
    refine ⟨⟨hpl, h1f, ?_⟩, ?_⟩
    · show (ArcLruPart.put (ArcCache.checkGhostCaches s k).2.lru k v).2.capacity
        + (ArcCache.checkGhostCaches s k).2.lfu.capacity
          = 2 * (ArcCache.checkGhostCaches s k).2.capacity
      rw [hplcap]
      exact h1sum
    · show (ArcCache.checkGhostCaches s k).2.capacity = s.capacity
      exact hcgcap
  · have hgf : (ArcCache.checkGhostCaches s k).1 = false := Bool.eq_false_iff.mpr hg
    rw [hgf, if_pos (by simp)]
    by_cases hrp : (ArcLruPart.put (ArcCache.checkGhostCaches s k).2.lru k v).1 = true
    · rw [if_pos hrp]
      refine ⟨⟨hpl, hpf, ?_⟩, ?_⟩
      · show (ArcLruPart.put (ArcCache.checkGhostCaches s k).2.lru k v).2.capacity
          + (ArcLfuPart.put (ArcCache.checkGhostCaches s k).2.lfu k v).2.capacity
            = 2 * (ArcCache.checkGhostCaches s k).2.capacity
        rw [hplcap, hpfcap]
        exact h1sum
      · show (ArcCache.checkGhostCaches s k).2.capacity = s.capacity
        exact hcgcap
    · rw [if_neg hrp]
      refine ⟨⟨hpl, h1f, ?_⟩, ?_⟩
      · show (ArcLruPart.put (ArcCache.checkGhostCaches s k).2.lru k v).2.capacity
          + (ArcCache.checkGhostCaches s k).2.lfu.capacity
            = 2 * (ArcCache.checkGhostCaches s k).2.capacity
        rw [hplcap]
        exact h1sum
      · show (ArcCache.checkGhostCaches s k).2.capacity = s.capacity
        exact hcgcap

/-- `ArcCache::get` preserves the composite invariant and the nominal
capacity (the promotion branch's `put` into the frequency half included). -/
lemma arcGet_inv (s : ArcState) (k : Nat) (h : ArcInvariant s) :
    ArcInvariant (ArcCache.get s k).2.2 ∧ (ArcCache.get s k).2.2.capacity = s.capacity := by
  obtain ⟨hcg, hcgcap⟩ := arcCheckGhost_inv s k h
  obtain ⟨h1l, h1f, h1sum⟩ := hcg
  obtain ⟨hgl, hglcap, _⟩ := arcLruGet_inv (ArcCache.checkGhostCaches s k).2.lru k h1l
  obtain ⟨hgf, hgfcap, _⟩ := arcLfuGet_inv (ArcCache.checkGhostCaches s k).2.lfu k h1f
  obtain ⟨hpf, hpfcap⟩ := arcLfuPut_inv (ArcCache.checkGhostCaches s k).2.lfu k
    (ArcLruPart.get (ArcCache.checkGhostCaches s k).2.lru k).2.1 h1f
  unfold ArcCache.get
  by_cases hr : (ArcLruPart.get (ArcCache.checkGhostCaches s k).2.lru k).1 = true
  · rw [if_pos hr]
    by_cases hst : (ArcLruPart.get (ArcCache.checkGhostCaches s k).2.lru k).2.2.1 = true
    · rw [if_pos hst]
      refine ⟨⟨hgl, hpf, ?_⟩, ?_⟩
      · show (ArcLruPart.get (ArcCache.checkGhostCaches s k).2.lru k).2.2.2.capacity
          + (ArcLfuPart.put (ArcCache.checkGhostCaches s k).2.lfu k
              (ArcLruPart.get (ArcCache.checkGhostCaches s k).2.lru k).2.1).2.capacity
            = 2 * (ArcCache.checkGhostCaches s k).2.capacity
        rw [hglcap, hpfcap]
        exact h1sum
      · show (ArcCache.checkGhostCaches s k).2.capacity = s.capacity
        exact hcgcap
    · rw [if_neg hst]
      refine ⟨⟨hgl, h1f, ?_⟩, ?_⟩
      · show (ArcLruPart.get (ArcCache.checkGhostCaches s k).2.lru k).2.2.2.capacity
          + (ArcCache.checkGhostCaches s k).2.lfu.capacity
            = 2 * (ArcCache.checkGhostCaches s k).2.capacity
        rw [hglcap]
        exact h1sum
      · show (ArcCache.checkGhostCaches s k).2.capacity = s.capacity
        exact hcgcap
  · rw [if_neg hr]
    refine ⟨⟨h1l, hgf, ?_⟩, ?_⟩
    · show (ArcCache.checkGhostCaches s k).2.lru.capacity
        + (ArcLfuPart.get (ArcCache.checkGhostCaches s k).2.lfu k).2.2.capacity
          = 2 * (ArcCache.checkGhostCaches s k).2.capacity
      rw [hgfcap]
      exact h1sum
    · show (ArcCache.checkGhostCaches s k).2.capacity = s.capacity
      exact hcgcap

/-- Every public `ArcCache` call preserves the composite invariant and the
nominal capacity. -/
lemma arcStep_inv (s : ArcState) (op : ArcOp) (h : ArcInvariant s) :
    ArcInvariant (arcStep s op) ∧ (arcStep s op).capacity = s.capacity := by
  cases op with
  | put k v => exact arcPut_inv s k v h
  | get k => exact arcGet_inv s k h

/-- Every call sequence preserves the composite invariant and the nominal
capacity. -/
lemma runArc_inv (ops : List ArcOp) : ∀ s : ArcState, ArcInvariant s →
    ArcInvariant (runArc ops s) ∧ (runArc ops s).capacity = s.capacity := by
  induction ops with
  | nil => exact fun s h => ⟨h, rfl⟩
  | cons op ops ih =>
    intro s h
    obtain ⟨h1, hcap1⟩ := arcStep_inv s op h
    obtain ⟨h2, hcap2⟩ := ih (arcStep s op) h1
    refine ⟨h2, ?_⟩
    show (runArc ops (arcStep s op)).capacity = s.capacity
    rw [hcap2, hcap1]

/-- The freshly constructed `ArcCache` satisfies the invariant. -/
lemma arcInit_inv (c K : Nat) : ArcInvariant (ArcCache.mk c K) := by
  refine ⟨⟨?_, ?_⟩, ⟨?_, ?_, ?_⟩, ?_⟩ <;>
    simp [ArcCache.mk, ArcLruPart.mk, ArcLfuPart.mk]
  omega

/-- Claim C1, amended.  For the ARC policy with total capacity `c`, after
every sequence of `put`/`get` operations each half's resident count is
bounded by that half's own (adaptive) capacity and the two capacities sum to
`2c`; hence `|T1| + |T2| ≤ 2c` after every operation.  (The bound `c` of the
original claim does not hold — see the counterexample — because both halves
are constructed with the full capacity `c` and a fresh `put` inserts the key
into both halves.) -/
theorem c1_amended_arc_sizes_le_two_c (c K : Nat) (ops : List ArcOp) :
    (runArc ops (ArcCache.mk c K)).lru.main.length
        + (runArc ops (ArcCache.mk c K)).lfu.nodes.length ≤ 2 * c ∧
    (runArc ops (ArcCache.mk c K)).lru.main.length
        ≤ (runArc ops (ArcCache.mk c K)).lru.capacity ∧
    (runArc ops (ArcCache.mk c K)).lfu.nodes.length
        ≤ (runArc ops (ArcCache.mk c K)).lfu.capacity ∧
    (runArc ops (ArcCache.mk c K)).lru.capacity
        + (runArc ops (ArcCache.mk c K)).lfu.capacity = 2 * c := by
  obtain ⟨⟨hl, hf, hsum⟩, hcap⟩ := runArc_inv ops (ArcCache.mk c K) (arcInit_inv c K)
  have hc : (ArcCache.mk c K).capacity = c := rfl
  rw [hc] at hcap
  rw [hcap] at hsum
  exact ⟨by have := hl.1; have := hf.1; omega, hl.1, hf.1, hsum⟩

end XrmsCache

namespace XrmsCache

/-- `ArcLruPart::put` with non-zero capacity always leaves the key resident
(update-in-place or fresh insert). -/
lemma arcLruPut_mem (p : ArcLruState) (k v : Nat) (hc : p.capacity ≠ 0) :
    k ∈ (ArcLruPart.put p k v).2.main.map (fun e => e.key) := by
  unfold ArcLruPart.put
  rw [if_neg hc]
  cases hf : p.main.find? (fun e => e.key == k) with
  | some e =>
    dsimp only
    unfold ArcLruPart.updateExistingNode
    have hek : e.key = k := by
      have := List.find?_some hf
      simpa using this
    show k ∈ (({ e with value := v } : ArcEntry)
        :: p.main.filter (fun x => x.key != e.key)).map (fun e => e.key)
    rw [List.map_cons]
    exact hek ▸ List.mem_cons_self _ _
  | none =>
    dsimp only
    unfold ArcLruPart.addNewNode
    show k ∈ ((⟨k, v, 1⟩ : ArcEntry)
        :: (if p.main.length ≥ p.capacity then ArcLruPart.evictLeastRecent p
            else p).main).map (fun e => e.key)
    rw [List.map_cons]
    exact List.mem_cons_self _ _

/-- Claim C3, amended.  A `put` on a key currently in the recency ghost list
B1 adjusts the capacity split (shrinking the frequency half when possible
and then growing the recency half) and leaves the key resident in T1: after
the ghost adjustment the recency half's capacity is necessarily non-zero (if
the frequency half could not shrink, its capacity was 0, so the recency half
already holds the whole `2c ≥ 2` budget), and the recency-half `put` then
stores the key.  (A `get` on a ghost key, by contrast, only adjusts the
split and discards the ghost entry without materializing the key — see the
counterexample — and a `put` on a B2 key can likewise fail to leave the key
resident once the recency half's capacity has been adapted down to 0.) -/
theorem c3_amended_put_on_b1_resident (s : ArcState) (k v : Nat)
    (h : ArcInvariant s) (hc : 1 ≤ s.capacity) (hk : k ∈ s.lru.ghost) :
    k ∈ (ArcCache.put s k v).lru.main.map (fun e => e.key) := by
  obtain ⟨hlru, hlfu, hsum⟩ := h
  have hcg1 : (ArcLruPart.checkGhost s.lru k).1 = true := by
    unfold ArcLruPart.checkGhost
    rw [if_pos hk]
  have hcgc : (ArcCache.checkGhostCaches s k).1 = true := by
    unfold ArcCache.checkGhostCaches
    rw [if_pos hcg1]
  have hlrueq : (ArcCache.checkGhostCaches s k).2.lru
      = (if (ArcLfuPart.decreaseCapacity s.lfu).1
          then ArcLruPart.increaseCapacity (ArcLruPart.checkGhost s.lru k).2
          else (ArcLruPart.checkGhost s.lru k).2) := by
    unfold ArcCache.checkGhostCaches
    rw [if_pos hcg1]
  have hfL := arcLruCheckGhost_fields s.lru k
  have hcap : (ArcCache.checkGhostCaches s k).2.lru.capacity ≠ 0 := by
    rw [hlrueq]
    by_cases hd : (ArcLfuPart.decreaseCapacity s.lfu).1 = true
    · rw [if_pos hd]
      show (ArcLruPart.checkGhost s.lru k).2.capacity + 1 ≠ 0
      omega
    · rw [if_neg hd]
      have hdf : (ArcLfuPart.decreaseCapacity s.lfu).1 = false :=
        Bool.eq_false_iff.mpr hd
      have hzero : s.lfu.capacity = 0 :=
        (decreaseCapacity_false_iff.2 s.lfu).mp hdf
      rw [hfL.2]
      omega
  unfold ArcCache.put
  rw [hcgc, if_neg (by simp)]
  show k ∈ (ArcLruPart.put (ArcCache.checkGhostCaches s k).2.lru k v).2.main.map
    (fun e => e.key)
  exact arcLruPut_mem _ k v hcap

/-- Witness for the amended claim C3: `ArcCache(1); put(1,10); put(2,20)`
leaves key 1 in B1; a further `put(1,99)` re-materializes it in T1. -/
theorem c3_amended_put_on_b1_resident_witness :
    (ArcInvariant (runArc [.put 1 10, .put 2 20] (ArcCache.mk 1 2)) ∧
      1 ≤ (runArc [.put 1 10, .put 2 20] (ArcCache.mk 1 2)).capacity ∧
      1 ∈ (runArc [.put 1 10, .put 2 20] (ArcCache.mk 1 2)).lru.ghost) ∧
    1 ∈ (ArcCache.put (runArc [.put 1 10, .put 2 20] (ArcCache.mk 1 2)) 1 99).lru.main.map
      (fun e => e.key) :=
  ⟨⟨by decide, by decide, by decide⟩,
    c3_amended_put_on_b1_resident (runArc [.put 1 10, .put 2 20] (ArcCache.mk 1 2)) 1 99
      (by decide) (by decide) (by decide)⟩

end XrmsCache
